import Mathlib

/-!
Verification of the sliding-puzzle solving engine of the NPL Puzzle Project
(source files `client_Computer.py` and `client_Human.py`).

A board is a list of rows of natural numbers; the blank is the value 0.
Python integers are modelled with `Nat`/`Int`, Python exceptions with
`Except`, and loops whose termination the source does not ensure take an
explicit fuel argument whose exhaustion is a distinguished outcome
(`PErr.fuelOut`) caught by no handler of the source.
-/

/-- A single blank move, named after the string constants of the source.
The constructor order lists the strings in Python string-comparison
(alphabetical) order, so comparisons of `Move` ranks mirror comparisons of
the strings. -/
inductive Move where
  | DOWN
  | LEFT
  | RIGHT
  | UP
deriving DecidableEq, Repr

/-- Rank of a move in Python string order: DOWN < LEFT < RIGHT < UP. -/
def Move.rank : Move → ℕ
  | .DOWN => 0
  | .LEFT => 1
  | .RIGHT => 2
  | .UP => 3

abbrev Board := List (List ℕ)

namespace Puzzle

/-- Reading `board[i][j]` at in-range indices (0 is a junk default, used only
outside the domain the source exercises). -/
def getCell (b : Board) (i j : ℕ) : ℕ := (b.getD i []).getD j 0

/-- Writing `board[i][j] = v` at in-range indices. -/
def setCell (b : Board) (i j v : ℕ) : Board := b.set i ((b.getD i []).set j v)

/-- Python `[x for row in board for x in row]`. -/
def flatten (b : Board) : List ℕ := b.flatten

/-- Board well-formedness, the Board invariant of the data model: `h` rows of
width `w` whose flattening is a permutation of `0 .. w*h-1` (so exactly one
blank). -/
def WF (w h : ℕ) (b : Board) : Prop :=
  b.length = h ∧ (∀ row ∈ b, row.length = w) ∧ b.flatten.Perm (List.range (w * h))

instance (w h : ℕ) (b : Board) : Decidable (WF w h b) := by
  unfold WF; infer_instance

/-- The inner double loop of `SlidingPuzzle.is_solvable` (client_Computer.py
lines 319-324): the number of pairs `i < j` with
`nums_no_zero[i] > nums_no_zero[j]`, accumulated head by head. -/
def inversions : List ℕ → ℕ
  | [] => 0
  | x :: xs => xs.countP (fun y => decide (y < x)) + inversions xs

/-- `SlidingPuzzle.is_solvable` (client_Computer.py lines 318-330) and the
identical `SlidingPuzzleModel._is_solvable` (client_Human.py lines 72-98).
`nums` is the flattened board, `w` and `h` are `self.width`, `self.height`;
`nums.index(0)` is the first index holding the blank. -/
def is_solvable (w h : ℕ) (nums : List ℕ) : Bool :=
  let inv := inversions (nums.filter (fun x => decide (x ≠ 0)))
  if w % 2 == 1 then inv % 2 == 0
  else
    let empty_row_from_bottom : ℤ := (h : ℤ) - (nums.indexOf 0 / w : ℕ)
    if w % 2 == 0 then (empty_row_from_bottom % 2 == 0) != (inv % 2 == 0)
    else true

/-- The blank-position scan of `SlidingPuzzle.move` (client_Computer.py lines
334-337): the last cell in row-major order holding 0 wins. The source leaves
`er, ec` unbound when no cell holds 0; `(0, 0)` stands in for that case,
which well-formed boards never reach. -/
def lastBlankScan (w h : ℕ) (b : Board) : ℕ × ℕ :=
  ((List.range h).flatMap (fun i => (List.range w).map (fun j => (i, j)))).foldl
    (fun acc p => if getCell b p.1 p.2 == 0 then p else acc) (0, 0)

/-- `SlidingPuzzle.move` (client_Computer.py lines 333-349), restricted to the
board mutation: swap the blank with `board[r][c]` when orthogonally adjacent,
else leave the board unchanged (move counting and widget updates are outside
the model). -/
def moveSwap (w h : ℕ) (b : Board) (r c : ℕ) : Board :=
  let er := (lastBlankScan w h b).1
  let ec := (lastBlankScan w h b).2
  if ((er : ℤ) - (r : ℤ)).natAbs + ((ec : ℤ) - (c : ℤ)).natAbs == 1 then
    setCell (setCell b er ec (getCell b r c)) r c (getCell b er ec)
  else b

/-- The blank-position scan of `SlidingPuzzle.perform_move` (line 352): the
first cell in row-major order holding 0 (the source raises IndexError when
there is none; `(0, 0)` stands in for that unreachable case). -/
def firstBlankScan (w h : ℕ) (b : Board) : ℕ × ℕ :=
  (((List.range h).flatMap (fun i => (List.range w).map (fun j => (i, j)))).find?
    (fun p => getCell b p.1 p.2 == 0)).getD (0, 0)

/-- `SlidingPuzzle.perform_move` (client_Computer.py lines 351-360): find the
blank, then slide it in the given direction via `move` when the destination
row/column exists; out-of-range directions are silently ignored. -/
def perform_move (w h : ℕ) (b : Board) (m : Move) : Board :=
  let er := (firstBlankScan w h b).1
  let ec := (firstBlankScan w h b).2
  match m with
  | .DOWN => if er + 1 < h then moveSwap w h b (er + 1) ec else b
  | .UP => if 1 ≤ er then moveSwap w h b (er - 1) ec else b
  | .RIGHT => if ec + 1 < w then moveSwap w h b er (ec + 1) else b
  | .LEFT => if 1 ≤ ec then moveSwap w h b er (ec - 1) else b

/-- Replaying a move list one `perform_move` at a time, as `animate_solution`
does with a solver result. -/
def applyMoves (w h : ℕ) (b : Board) (ms : List Move) : Board :=
  ms.foldl (fun bd m => perform_move w h bd m) b

/-- The canonical solved board of `is_solved_board` (client_Computer.py lines
951-956): value `(i*w+j+1) % (w*h)` at row `i`, column `j` — ascending order
with the blank last. -/
def canonical (w h : ℕ) : Board :=
  (List.range h).map (fun i => (List.range w).map (fun j => (i * w + j + 1) % (w * h)))

/-- Specification-side inversion count (spec §4.1 with the glossary entry for
inversion): the number of pairs of positions `i < j` of the sequence whose
values appear out of ascending order. -/
def specInversionCount (l : List ℕ) : ℕ :=
  ∑ j ∈ Finset.range l.length,
    ((Finset.range j).filter (fun i => l.getD j 0 < l.getD i 0)).card

/-- Counting positions below `j` whose value satisfies `p` is counting
satisfying elements of `l.take j`. -/
theorem card_filter_range_eq_countP_take (l : List ℕ) (p : ℕ → Bool) (j : ℕ)
    (hj : j ≤ l.length) :
    ((Finset.range j).filter (fun i => p (l.getD i 0) = true)).card =
      (l.take j).countP p := by
  induction j with
  | zero => simp
  | succ k ih =>
    have hk : k ≤ l.length := Nat.le_of_succ_le hj
    have hkl : k < l.length := hj
    have hget : l.getD k 0 = l[k] := by
      rw [List.getD_eq_getElem?_getD, List.getElem?_eq_getElem hkl]
      rfl
    have htake : l.take (k + 1) = l.take k ++ [l[k]] := by
      rw [List.take_succ, List.getElem?_eq_getElem hkl]
      rfl
    rw [Finset.range_succ, Finset.filter_insert, htake, List.countP_append]
    by_cases hp : p (l.getD k 0) = true
    · rw [if_pos hp, Finset.card_insert_of_not_mem (by simp), ih hk]
      rw [hget] at hp
      simp [List.countP_cons, hp]
    · rw [if_neg hp, ih hk]
      rw [hget] at hp
      simp [List.countP_cons, hp]

/-- The source's inversion loop computes the specification's inversion
count. -/
theorem inversions_eq_spec (l : List ℕ) : inversions l = specInversionCount l := by
  induction l with
  | nil => simp [inversions, specInversionCount]
  | cons x xs ih =>
    unfold specInversionCount at *
    rw [inversions, ih]
    simp only [List.length_cons]
    rw [Finset.sum_range_succ']
    have h0 : ((Finset.range 0).filter
        (fun i => (x :: xs).getD 0 0 < (x :: xs).getD i 0)).card = 0 := by simp
    rw [h0, Nat.add_zero]
    have hterm : ∀ j, ((Finset.range (j + 1)).filter
        (fun i => (x :: xs).getD (j + 1) 0 < (x :: xs).getD i 0)).card =
        (if decide (xs.getD j 0 < x) = true then 1 else 0) +
          ((Finset.range j).filter (fun i => xs.getD j 0 < xs.getD i 0)).card := by
      intro j
      have hsplit : (Finset.range (j + 1)).filter
          (fun i => (x :: xs).getD (j + 1) 0 < (x :: xs).getD i 0) =
          ((Finset.range j).filter (fun i => xs.getD j 0 < xs.getD i 0)).image (· + 1) ∪
            (if xs.getD j 0 < x then {0} else ∅) := by
        ext i
        cases i with
        | zero =>
          by_cases hx : xs[j]?.getD 0 < x <;>
            simp [Finset.mem_filter, List.getD_eq_getElem?_getD, hx]
        | succ i' =>
          by_cases hx : xs[j]?.getD 0 < x <;>
            simp [Finset.mem_filter, Finset.mem_image, Nat.succ_lt_succ_iff,
              List.getD_eq_getElem?_getD, hx]
      rw [hsplit, Finset.card_union_of_disjoint]
      · rw [Finset.card_image_of_injective _ (fun a b h => by omega)]
        by_cases hx : xs[j]?.getD 0 < x
        · simp [List.getD_eq_getElem?_getD, hx, Nat.add_comm]
        · simp [List.getD_eq_getElem?_getD, hx]
      · refine Finset.disjoint_left.mpr ?_
        intro a ha hb
        split_ifs at hb with hx
        · obtain ⟨i, -, hi⟩ := Finset.mem_image.mp ha
          rw [Finset.mem_singleton] at hb
          omega
        · exact absurd hb (Finset.not_mem_empty a)
    calc xs.countP (fun y => decide (y < x)) + ∑ j ∈ Finset.range xs.length,
            ((Finset.range j).filter (fun i => xs.getD j 0 < xs.getD i 0)).card
        = ∑ j ∈ Finset.range xs.length,
            ((if decide (xs.getD j 0 < x) = true then 1 else 0) +
              ((Finset.range j).filter (fun i => xs.getD j 0 < xs.getD i 0)).card) := by
          rw [Finset.sum_add_distrib]
          congr 1
          have := card_filter_range_eq_countP_take xs (fun y => decide (y < x))
            xs.length (le_refl _)
          rw [List.take_length] at this
          rw [← this]
          rw [Finset.card_filter]
      _ = ∑ j ∈ Finset.range xs.length, ((Finset.range (j + 1)).filter
            (fun i => (x :: xs).getD (j + 1) 0 < (x :: xs).getD i 0)).card := by
          apply Finset.sum_congr rfl
          intro j _
          rw [hterm j]

/-- Claim C2: on every flattened sequence that is a permutation of
0..w*h-1, `is_solvable` implements the spec decision rule — width odd:
solvable iff the inversion count over non-blank values is even; width even:
solvable iff blank_row_from_bottom = height - blank_index // width being
even differs (logical XOR) from the inversion count being even — and on
width 3, height 3, flattened board [1,2,3,4,5,6,8,7,0] it returns false. -/
theorem C2_solvability_oracle_matches_spec :
    (∀ w h : ℕ, ∀ nums : List ℕ, nums.Perm (List.range (w * h)) →
      (is_solvable w h nums = true ↔
        (if w % 2 = 1 then
          specInversionCount (nums.filter (fun x => decide (x ≠ 0))) % 2 = 0
        else
          ¬((((h : ℤ) - (nums.indexOf 0 / w : ℕ)) % 2 = 0) ↔
            specInversionCount (nums.filter (fun x => decide (x ≠ 0))) % 2 = 0)))) ∧
    is_solvable 3 3 [1, 2, 3, 4, 5, 6, 8, 7, 0] = false := by
  constructor
  · intro w h nums _
    unfold is_solvable
    rw [← inversions_eq_spec]
    by_cases hw : w % 2 = 1
    · simp [hw]
    · have hw0 : w % 2 = 0 := by omega
      rw [if_neg hw]
      rw [show (w % 2 == 1) = false from by simp [hw0],
        show (w % 2 == 0) = true from by simp [hw0]]
      simp only [Bool.false_eq_true, if_false, if_true]
      rw [bne_iff_ne, ne_eq, Bool.eq_iff_iff]
      simp only [beq_iff_eq]
  · decide

/-- Witness for C2 at width 3, height 3, flattened board
[1,2,3,4,5,6,8,7,0]. -/
theorem C2_solvability_oracle_matches_spec_witness :
    ([1, 2, 3, 4, 5, 6, 8, 7, 0] : List ℕ).Perm (List.range (3 * 3)) ∧
    (is_solvable 3 3 [1, 2, 3, 4, 5, 6, 8, 7, 0] = true ↔
      (if (3 : ℕ) % 2 = 1 then
        specInversionCount (([1, 2, 3, 4, 5, 6, 8, 7, 0] : List ℕ).filter
          (fun x => decide (x ≠ 0))) % 2 = 0
      else
        ¬((((3 : ℕ) : ℤ) -
            (([1, 2, 3, 4, 5, 6, 8, 7, 0] : List ℕ).indexOf 0 / 3 : ℕ)) % 2 = 0 ↔
          specInversionCount (([1, 2, 3, 4, 5, 6, 8, 7, 0] : List ℕ).filter
            (fun x => decide (x ≠ 0))) % 2 = 0))) :=
  ⟨by decide,
    C2_solvability_oracle_matches_spec.1 3 3 [1, 2, 3, 4, 5, 6, 8, 7, 0] (by decide)⟩

/-- Inversions contributed by pairs that straddle two adjacent blocks. -/
def crossInv (l r : List ℕ) : ℕ :=
  (l.map (fun x => r.countP (fun y => decide (y < x)))).sum

theorem inversions_append (l r : List ℕ) :
    inversions (l ++ r) = inversions l + inversions r + crossInv l r := by
  induction l with
  | nil => simp [inversions, crossInv]
  | cons x xs ih =>
    have hc : (x :: xs) ++ r = x :: (xs ++ r) := rfl
    rw [hc, inversions, inversions, List.countP_append, ih]
    unfold crossInv
    simp only [List.map_cons, List.sum_cons]
    ring

theorem crossInv_cons (l : List ℕ) (y : ℕ) (r : List ℕ) :
    crossInv l (y :: r) = l.countP (fun x => decide (y < x)) + crossInv l r := by
  induction l with
  | nil => simp [crossInv]
  | cons a as ih =>
    simp only [crossInv, List.map_cons, List.sum_cons, List.countP_cons] at *
    rw [ih]
    by_cases hy : y < a <;> simp [hy] <;> ring

theorem crossInv_perm (l : List ℕ) {r r2 : List ℕ} (hp : r.Perm r2) :
    crossInv l r = crossInv l r2 := by
  unfold crossInv
  congr 1
  refine List.map_congr_left fun x _ => ?_
  exact hp.countP_eq _

/-- Moving one value across a block changes the inversion count by the number
of smaller elements in the block minus the number of larger ones. -/
theorem inversions_middle (A M B : List ℕ) (v : ℕ) :
    inversions (A ++ v :: (M ++ B)) + M.countP (fun y => decide (v < y)) =
      inversions (A ++ (M ++ v :: B)) + M.countP (fun y => decide (y < v)) := by
  have e1 : inversions (A ++ v :: (M ++ B)) =
      inversions A + (M.countP (fun y => decide (y < v)) +
        B.countP (fun y => decide (y < v)) +
        (inversions M + inversions B + crossInv M B)) +
      crossInv A (v :: (M ++ B)) := by
    rw [inversions_append]
    simp only [inversions]
    rw [List.countP_append, inversions_append]
  have e2 : inversions (A ++ (M ++ v :: B)) =
      inversions A + (inversions M + (B.countP (fun y => decide (y < v)) +
        inversions B) + (M.countP (fun x => decide (v < x)) + crossInv M B)) +
      crossInv A (v :: (M ++ B)) := by
    rw [inversions_append, inversions_append, crossInv_perm A List.perm_middle]
    simp only [inversions]
    rw [crossInv_cons]
  omega

theorem countP_lt_add_gt (M : List ℕ) (v : ℕ) (hv : ∀ m ∈ M, m ≠ v) :
    M.countP (fun y => decide (v < y)) + M.countP (fun y => decide (y < v)) =
      M.length := by
  induction M with
  | nil => simp
  | cons m ms ih =>
    have hm : m ≠ v := hv m (List.mem_cons_self m ms)
    have := ih (fun a ha => hv a (List.mem_cons_of_mem m ha))
    simp only [List.countP_cons, List.length_cons]
    rcases Nat.lt_or_ge m v with hlt | hge
    · have e1 : decide (v < m) = false := by simp; omega
      have e2 : decide (m < v) = true := by simp [hlt]
      simp only [e1, e2]
      simp only [if_true]
      rw [if_neg (by simp)]
      omega
    · have h2 : v < m := by omega
      have e1 : decide (v < m) = true := by simp [h2]
      have e2 : decide (m < v) = false := by simp; omega
      simp only [e1, e2]
      simp only [if_true]
      rw [if_neg (by simp)]
      omega

/-- A two-position swap, written exactly as the tuple-assignment swap of the
source does it: read both cells, then write both. -/
def swapIdx (f : List ℕ) (p q : ℕ) : List ℕ :=
  (f.set p (f.getD q 0)).set q (f.getD p 0)

theorem swapIdx_comm (f : List ℕ) (p q : ℕ) (h : p ≠ q) :
    swapIdx f p q = swapIdx f q p := by
  unfold swapIdx
  exact List.set_comm _ _ _ h

theorem set_append_shift (A T : List ℕ) (k v : ℕ) :
    (A ++ T).set (A.length + k) v = A ++ T.set k v := by
  induction A with
  | nil => simp
  | cons a as ih =>
    simp only [List.cons_append, List.length_cons]
    rw [show as.length + 1 + k = (as.length + k) + 1 by omega]
    simp [List.set, ih]

theorem set_swap_decomp (A M B : List ℕ) (x y v1 v2 : ℕ) :
    ((A ++ x :: (M ++ y :: B)).set A.length v1).set (A.length + 1 + M.length) v2 =
      A ++ v1 :: (M ++ v2 :: B) := by
  have h1 : (A ++ x :: (M ++ y :: B)).set A.length v1 = A ++ v1 :: (M ++ y :: B) := by
    have := set_append_shift A (x :: (M ++ y :: B)) 0 v1
    simpa using this
  rw [h1]
  have h2 : A.length + 1 + M.length = A.length + (1 + M.length) := by omega
  rw [h2, set_append_shift A (v1 :: (M ++ y :: B)) (1 + M.length) v2]
  congr 1
  have h3 : (v1 :: (M ++ y :: B)).set (1 + M.length) v2 =
      v1 :: (M ++ y :: B).set M.length v2 := by
    rw [show 1 + M.length = M.length + 1 by omega]
    simp [List.set]
  rw [h3]
  congr 1
  have := set_append_shift M (y :: B) 0 v2
  simpa using this

theorem exists_two_split (f : List ℕ) (p q : ℕ) (hpq : p < q) (hq : q < f.length) :
    ∃ A M B, f = A ++ f.getD p 0 :: (M ++ f.getD q 0 :: B) ∧
      A.length = p ∧ M.length = q - p - 1 := by
  refine ⟨f.take p, (f.drop (p + 1)).take (q - p - 1), f.drop (q + 1), ?_, ?_, ?_⟩
  · have hp : p < f.length := lt_trans hpq hq
    have hgp : f.getD p 0 = f[p] := by
      rw [List.getD_eq_getElem?_getD, List.getElem?_eq_getElem hp]; rfl
    have hgq : f.getD q 0 = f[q] := by
      rw [List.getD_eq_getElem?_getD, List.getElem?_eq_getElem hq]; rfl
    rw [hgp, hgq]
    conv_lhs => rw [← List.take_append_drop p f]
    congr 1
    rw [List.drop_eq_getElem_cons hp]
    congr 1
    conv_lhs => rw [← List.take_append_drop (q - p - 1) (f.drop (p + 1))]
    congr 1
    rw [List.drop_drop]
    have harith : p + 1 + (q - p - 1) = q := by omega
    rw [harith, List.drop_eq_getElem_cons hq]
  · simp [List.length_take]
    omega
  · simp [List.length_take, List.length_drop]
    omega

/-- Swapping positions `p < q` of `f`, exhibited on an explicit
decomposition of `f`. -/
theorem swap_split (f : List ℕ) (p q : ℕ) (hpq : p < q) (hq : q < f.length) :
    ∃ A M B, f = A ++ f.getD p 0 :: (M ++ f.getD q 0 :: B) ∧
      swapIdx f p q = A ++ f.getD q 0 :: (M ++ f.getD p 0 :: B) ∧
      A.length = p ∧ M.length = q - p - 1 := by
  obtain ⟨A, M, B, hf, hA, hM⟩ := exists_two_split f p q hpq hq
  refine ⟨A, M, B, hf, ?_, hA, hM⟩
  unfold swapIdx
  generalize hxx : f.getD p 0 = x at hf ⊢
  generalize hyy : f.getD q 0 = y at hf ⊢
  rw [hf, show p = A.length from hA.symm,
    show q = A.length + 1 + M.length by omega]
  exact set_swap_decomp A M B x y y x

theorem set_append_left_of_lt (A T : List ℕ) (k v : ℕ) (hk : k < A.length) :
    (A ++ T).set k v = A.set k v ++ T := by
  induction A generalizing k with
  | nil => simp at hk
  | cons a as ih =>
    cases k with
    | zero => rfl
    | succ k2 =>
      show a :: (as ++ T).set k2 v = a :: (as.set k2 v ++ T)
      rw [ih k2 (by simpa using hk)]

theorem getD_append_left_of_lt (A T : List ℕ) (k : ℕ) (hk : k < A.length) :
    (A ++ T).getD k 0 = A.getD k 0 := by
  rw [List.getD_eq_getElem?_getD, List.getD_eq_getElem?_getD,
    List.getElem?_append_left hk]

theorem getD_append_shift (A T : List ℕ) (k : ℕ) :
    (A ++ T).getD (A.length + k) 0 = T.getD k 0 := by
  induction A with
  | nil => simp
  | cons a as ih =>
    have hlen : (a :: as).length + k = (as.length + k) + 1 := by
      simp [List.length_cons]; omega
    rw [hlen, List.cons_append, List.getD_cons_succ]
    exact ih

theorem flatten_setCell (w : ℕ) (b : Board) (i j v : ℕ)
    (hrows : ∀ row ∈ b, row.length = w) (hi : i < b.length) (hj : j < w) :
    flatten (setCell b i j v) = (flatten b).set (i * w + j) v := by
  induction b generalizing i with
  | nil => simp at hi
  | cons row rest ih =>
    have hrow : row.length = w := hrows row (List.mem_cons_self row rest)
    cases i with
    | zero =>
      have h1 : setCell (row :: rest) 0 j v = row.set j v :: rest := rfl
      rw [h1, Nat.zero_mul, Nat.zero_add]
      show row.set j v ++ rest.flatten = (row ++ rest.flatten).set j v
      rw [set_append_left_of_lt row rest.flatten j v (by omega)]
    | succ i2 =>
      have h1 : setCell (row :: rest) (i2 + 1) j v = row :: setCell rest i2 j v := rfl
      rw [h1]
      show row ++ flatten (setCell rest i2 j v) =
        (row ++ rest.flatten).set ((i2 + 1) * w + j) v
      rw [ih i2 (fun r hr => hrows r (List.mem_cons_of_mem row hr)) (by simpa using hi)]
      have hidx : (i2 + 1) * w + j = row.length + (i2 * w + j) := by rw [hrow]; ring
      rw [hidx, set_append_shift]
      rfl

theorem getCell_flatten (w : ℕ) (b : Board) (i j : ℕ)
    (hrows : ∀ row ∈ b, row.length = w) (hi : i < b.length) (hj : j < w) :
    getCell b i j = (flatten b).getD (i * w + j) 0 := by
  induction b generalizing i with
  | nil => simp at hi
  | cons row rest ih =>
    have hrow : row.length = w := hrows row (List.mem_cons_self row rest)
    cases i with
    | zero =>
      show row.getD j 0 = (row ++ rest.flatten).getD (0 * w + j) 0
      rw [Nat.zero_mul, Nat.zero_add,
        getD_append_left_of_lt row rest.flatten j (by omega)]
    | succ i2 =>
      show getCell rest i2 j = (row ++ rest.flatten).getD ((i2 + 1) * w + j) 0
      rw [ih i2 (fun r hr => hrows r (List.mem_cons_of_mem row hr)) (by simpa using hi)]
      have hidx : (i2 + 1) * w + j = row.length + (i2 * w + j) := by rw [hrow]; ring
      rw [hidx, getD_append_shift]
      rfl

/-- The row-major cell enumeration both blank scans walk. -/
def posList (h w : ℕ) : List (ℕ × ℕ) :=
  (List.range h).flatMap (fun i => (List.range w).map (fun j => (i, j)))

theorem posList_eq_map (h w : ℕ) :
    posList h w = (List.range (h * w)).map (fun k => (k / w, k % w)) := by
  induction h with
  | zero => simp [posList]
  | succ h2 ih =>
    unfold posList at *
    rw [List.range_succ, List.flatMap_append, ih, Nat.succ_mul, List.range_add,
      List.map_append, List.map_map]
    congr 1
    simp only [List.flatMap_cons, List.flatMap_nil, List.append_nil]
    refine List.map_congr_left fun j hj => ?_
    rw [List.mem_range] at hj
    rcases Nat.eq_zero_or_pos w with hw | hw
    · omega
    · have h1 : (h2 * w + j) / w = h2 := by
        rw [Nat.mul_comm h2 w, Nat.mul_add_div hw]
        simp [Nat.div_eq_of_lt hj]
      have h2' : (h2 * w + j) % w = j := by
        rw [Nat.mul_comm h2 w, Nat.mul_add_mod]
        exact Nat.mod_eq_of_lt hj
      simp [Function.comp, h1, h2']

theorem foldl_choose_last {α : Type} (L : List α) (P : α → Bool) (init : α) :
    L.foldl (fun acc p => if P p then p else acc) init =
      ((L.filter P).getLast?).getD init := by
  induction L generalizing init with
  | nil => simp
  | cons a L ih =>
    rw [List.foldl_cons, ih]
    by_cases hP : P a
    · rw [List.filter_cons_of_pos hP]
      rw [if_pos hP]
      cases hfl : L.filter P with
      | nil => simp
      | cons b t => simp [List.getLast?]
    · rw [List.filter_cons_of_neg hP, if_neg hP]

theorem filter_range'_unique (Q : ℕ → Bool) (z : ℕ) :
    ∀ (n a : ℕ), a ≤ z → z < a + n → Q z = true →
      (∀ k, a ≤ k → k < a + n → k ≠ z → Q k = false) →
      (List.range' a n).filter Q = [z] := by
  intro n
  induction n with
  | zero => intro a h1 h2; omega
  | succ m ih =>
    intro a h1 h2 hQ huniq
    rw [List.range'_succ]
    by_cases haz : a = z
    · subst haz
      rw [List.filter_cons_of_pos hQ]
      have : (List.range' (a + 1) m).filter Q = [] := by
        rw [List.filter_eq_nil_iff]
        intro k hk
        rw [List.mem_range'_1] at hk
        simp [huniq k (by omega) (by omega) (by omega)]
      rw [this]
    · rw [List.filter_cons_of_neg
        (by simp [huniq a (by omega) (by omega) haz])]
      exact ih (a + 1) (by omega) (by omega) hQ
        (fun k hk1 hk2 hk3 => huniq k (by omega) (by omega) hk3)

theorem find?_range'_unique (Q : ℕ → Bool) (z : ℕ) :
    ∀ (n a : ℕ), a ≤ z → z < a + n → Q z = true →
      (∀ k, a ≤ k → k < a + n → k ≠ z → Q k = false) →
      (List.range' a n).find? Q = some z := by
  intro n
  induction n with
  | zero => intro a h1 h2; omega
  | succ m ih =>
    intro a h1 h2 hQ huniq
    rw [List.range'_succ]
    by_cases haz : a = z
    · subst haz
      rw [List.find?_cons_of_pos _ hQ]
    · rw [List.find?_cons_of_neg _ (by simp [huniq a (by omega) (by omega) haz])]
      exact ih (a + 1) (by omega) (by omega) hQ
        (fun k hk1 hk2 hk3 => huniq k (by omega) (by omega) hk3)

theorem indexOf_zero_concat (A T : List ℕ) (hA : ∀ a ∈ A, a ≠ 0) :
    (A ++ 0 :: T).indexOf 0 = A.length := by
  induction A with
  | nil => simp
  | cons a as ih =>
    have ha : a ≠ 0 := hA a (List.mem_cons_self a as)
    rw [List.cons_append, List.indexOf_cons_ne _ (by simpa using ha),
      ih (fun t ht => hA t (List.mem_cons_of_mem a ht))]
    rfl

/-- The unique blank of a well-formed board, seen through the flattening. -/
theorem blank_facts (w h : ℕ) (b : Board) (hperm : (flatten b).Perm (List.range (w * h)))
    (hw : 0 < w) (hh : 0 < h) :
    (flatten b).length = w * h ∧
    (flatten b).indexOf 0 < w * h ∧
    (flatten b).getD ((flatten b).indexOf 0) 0 = 0 ∧
    (∀ k, k < w * h → k ≠ (flatten b).indexOf 0 → (flatten b).getD k 0 ≠ 0) := by
  have hlen : (flatten b).length = w * h := by
    rw [hperm.length_eq, List.length_range]
  have hmem : 0 ∈ flatten b := hperm.mem_iff.mpr (by
    rw [List.mem_range]
    positivity)
  have hidx : (flatten b).indexOf 0 < w * h := by
    rw [← hlen]
    exact List.indexOf_lt_length.mpr hmem
  have hnd : (flatten b).Nodup := (hperm.nodup_iff).mpr (List.nodup_range _)
  have hget : (flatten b).getD ((flatten b).indexOf 0) 0 = 0 := by
    have hlt : (flatten b).indexOf 0 < (flatten b).length := by omega
    rw [List.getD_eq_getElem?_getD, List.getElem?_eq_getElem hlt]
    simpa using List.getElem_indexOf hlt
  refine ⟨hlen, hidx, hget, ?_⟩
  intro k hk hne hzero
  apply hne
  have hlt : (flatten b).indexOf 0 < (flatten b).length := by omega
  have hklt : k < (flatten b).length := by omega
  have h1 : (flatten b)[k] = 0 := by
    rw [List.getD_eq_getElem?_getD, List.getElem?_eq_getElem hklt] at hzero
    simpa using hzero
  have h2 : (flatten b)[(flatten b).indexOf 0] = 0 := by
    simpa using List.getElem_indexOf hlt
  have h3 : (flatten b).get ⟨k, hklt⟩ = (flatten b).get ⟨(flatten b).indexOf 0, hlt⟩ := by
    simp [List.get_eq_getElem, h1, h2]
  have h4 := List.nodup_iff_injective_get.mp hnd h3
  exact congrArg Fin.val h4

/-- Both blank scans of the source locate the unique blank of a well-formed
board at the row-major position of its flat index. -/
theorem blankScans_eq (w h : ℕ) (b : Board) (hWF : WF w h b) (hw : 0 < w) (hh : 0 < h) :
    lastBlankScan w h b =
      ((flatten b).indexOf 0 / w, (flatten b).indexOf 0 % w) ∧
    firstBlankScan w h b =
      ((flatten b).indexOf 0 / w, (flatten b).indexOf 0 % w) := by
  obtain ⟨hlen, hrows, hperm⟩ := hWF
  obtain ⟨hflen, hidx, hget, huniq⟩ := blank_facts w h b hperm hw hh
  set z := (flatten b).indexOf 0 with hzdef
  have hblen : b.length = h := hlen
  have hzdm : z / w * w + z % w = z := by
    rw [Nat.mul_comm]
    exact Nat.div_add_mod z w
  have hQz : (getCell b (z / w) (z % w) == 0) = true := by
    rw [getCell_flatten w b _ _ hrows (by rw [hblen]; exact Nat.div_lt_of_lt_mul (by omega))
      (Nat.mod_lt _ hw), hzdm, hget]
    rfl
  have hidx2 : z < h * w := by rw [Nat.mul_comm]; exact hidx
  have hQk : ∀ k, k < h * w → k ≠ z → (getCell b (k / w) (k % w) == 0) = false := by
    intro k hk hkz
    have hkdm : k / w * w + k % w = k := by
      rw [Nat.mul_comm]
      exact Nat.div_add_mod k w
    have hk2 : k < w * h := by rw [Nat.mul_comm]; exact hk
    rw [getCell_flatten w b _ _ hrows
      (by rw [hblen]; exact Nat.div_lt_of_lt_mul hk2) (Nat.mod_lt _ hw), hkdm]
    simp only [beq_eq_false_iff_ne, ne_eq]
    exact huniq k hk2 hkz
  have hfilter : ((posList h w).filter (fun p => getCell b p.1 p.2 == 0)) =
      [(z / w, z % w)] := by
    rw [posList_eq_map, List.filter_map]
    have : (List.range (h * w)).filter
        ((fun p => getCell b p.1 p.2 == 0) ∘ (fun k => (k / w, k % w))) = [z] := by
      rw [List.range_eq_range']
      exact filter_range'_unique _ z (h * w) 0 (by omega) (by omega) hQz
        (fun k hk1 hk2 hk3 => hQk k (by omega) hk3)
    rw [this]
    rfl
  have hfind : ((posList h w).find? (fun p => getCell b p.1 p.2 == 0)) =
      some (z / w, z % w) := by
    rw [posList_eq_map, List.find?_map]
    have : (List.range (h * w)).find?
        ((fun p => getCell b p.1 p.2 == 0) ∘ (fun k => (k / w, k % w))) = some z := by
      rw [List.range_eq_range']
      exact find?_range'_unique _ z (h * w) 0 (by omega) (by omega) hQz
        (fun k hk1 hk2 hk3 => hQk k (by omega) hk3)
    rw [this]
    rfl
  constructor
  · show (posList h w).foldl (fun acc p => if getCell b p.1 p.2 == 0 then p else acc)
      (0, 0) = _
    rw [foldl_choose_last, hfilter]
    rfl
  · show ((posList h w).find? (fun p => getCell b p.1 p.2 == 0)).getD (0, 0) = _
    rw [hfind]
    rfl

theorem is_solvable_odd (w h : ℕ) (hw : w % 2 = 1) (nums : List ℕ) :
    is_solvable w h nums =
      (inversions (nums.filter (fun x => decide (x ≠ 0))) % 2 == 0) := by
  unfold is_solvable
  rw [if_pos (by simp [hw])]

theorem is_solvable_even (w h : ℕ) (hw : w % 2 = 0) (nums : List ℕ) :
    is_solvable w h nums =
      ((((h : ℤ) - (nums.indexOf 0 / w : ℕ)) % 2 == 0) !=
        (inversions (nums.filter (fun x => decide (x ≠ 0))) % 2 == 0)) := by
  unfold is_solvable
  rw [if_neg (by simp [hw]), if_pos (by simp [hw])]

theorem bne_flip (x1 x2 : ℤ) (n1 n2 : ℕ)
    (hx : (x1 % 2 = 0) ↔ ¬(x2 % 2 = 0)) (hn : (n1 % 2 = 0) ↔ ¬(n2 % 2 = 0)) :
    ((x1 % 2 == 0) != (n1 % 2 == 0)) = ((x2 % 2 == 0) != (n2 % 2 == 0)) := by
  have bx : ∀ y : ℤ, (y % 2 == 0) = decide (y % 2 = 0) := fun y => by
    by_cases hy : y % 2 = 0 <;> simp [hy]
  have bn : ∀ m : ℕ, (m % 2 == 0) = decide (m % 2 = 0) := fun m => by
    by_cases hm : m % 2 = 0 <;> simp [hm]
  rw [bx, bx, bn, bn]
  have e1 : decide (x1 % 2 = 0) = !decide (x2 % 2 = 0) := by
    by_cases h2 : x2 % 2 = 0
    · have hne : ¬(x1 % 2 = 0) := fun hh => (hx.mp hh) h2
      simp [hne, h2]
    · have heq : x1 % 2 = 0 := hx.mpr h2
      simp [heq, h2]
  have e2 : decide (n1 % 2 = 0) = !decide (n2 % 2 = 0) := by
    by_cases h2 : n2 % 2 = 0
    · have hne : ¬(n1 % 2 = 0) := fun hh => (hn.mp hh) h2
      simp [hne, h2]
    · have heq : n1 % 2 = 0 := hn.mpr h2
      simp [heq, h2]
  rw [e1, e2]
  cases decide (x2 % 2 = 0) <;> cases decide (n2 % 2 = 0) <;> rfl

/-- Swapping the blank with the tile just right of it in the flattening
leaves the solvability verdict unchanged. -/
theorem is_solvable_swap_horiz (w h : ℕ) (f : List ℕ) (p : ℕ)
    (hperm : f.Perm (List.range (w * h))) (hq : p + 1 < f.length)
    (hz : f.getD p 0 = 0 ∨ f.getD (p + 1) 0 = 0)
    (hrow : (p + 1) / w = p / w) :
    is_solvable w h (swapIdx f p (p + 1)) = is_solvable w h f := by
  have hnd : f.Nodup := (hperm.nodup_iff).mpr (List.nodup_range _)
  have hcle := List.nodup_iff_count_le_one.mp hnd
  obtain ⟨A, M, B, hf, hf2, hA, hM⟩ := swap_split f p (p + 1) (by omega) hq
  have hM0 : M = [] := List.length_eq_zero.mp (by omega)
  subst hM0
  simp only [List.nil_append] at hf hf2
  have hfilters : (swapIdx f p (p + 1)).filter (fun t => decide (t ≠ 0)) =
      f.filter (fun t => decide (t ≠ 0)) ∧
      ((swapIdx f p (p + 1)).indexOf 0 / w = f.indexOf 0 / w) := by
    rcases hz with h0 | h0
    · rw [h0] at hf hf2
      generalize hyv : f.getD (p + 1) 0 = y at hf hf2
      have hcnt0 := hcle 0
      rw [hf] at hcnt0
      simp only [List.count_append, List.count_cons] at hcnt0
      have hy0 : y ≠ 0 := by
        intro hc
        subst hc
        simp at hcnt0
        omega
      have hAfree : ∀ a ∈ A, a ≠ 0 := by
        intro a ha hc
        subst hc
        have := List.count_pos_iff_mem.mpr ha
        simp at hcnt0
        omega
      constructor
      · rw [hf2, hf]
        simp only [List.filter_append, List.filter_cons]
        simp [hy0]
      · rw [hf2, hf]
        have i1 : (A ++ 0 :: (y :: B)).indexOf 0 = A.length :=
          indexOf_zero_concat A (y :: B) hAfree
        have i2 : (A ++ y :: (0 :: B)).indexOf 0 = A.length + 1 := by
          have hh2 := indexOf_zero_concat (A ++ [y]) B
            (by
              intro a ha
              rcases List.mem_append.mp ha with h1 | h1
              · exact hAfree a h1
              · simp at h1; subst h1; exact hy0)
          simp only [List.append_assoc, List.cons_append, List.nil_append] at hh2
          rw [hh2]
          simp
        rw [i1, i2, hA, hrow]
    · rw [h0] at hf hf2
      generalize hxv : f.getD p 0 = x at hf hf2
      have hcnt0 := hcle 0
      rw [hf] at hcnt0
      simp only [List.count_append, List.count_cons] at hcnt0
      have hx0 : x ≠ 0 := by
        intro hc
        subst hc
        simp at hcnt0
        omega
      have hAfree : ∀ a ∈ A, a ≠ 0 := by
        intro a ha hc
        subst hc
        have := List.count_pos_iff_mem.mpr ha
        simp at hcnt0
        omega
      constructor
      · rw [hf2, hf]
        simp only [List.filter_append, List.filter_cons]
        simp [hx0]
      · rw [hf2, hf]
        have i1 : (A ++ x :: (0 :: B)).indexOf 0 = A.length + 1 := by
          have hh2 := indexOf_zero_concat (A ++ [x]) B
            (by
              intro a ha
              rcases List.mem_append.mp ha with h1 | h1
              · exact hAfree a h1
              · simp at h1; subst h1; exact hx0)
          simp only [List.append_assoc, List.cons_append, List.nil_append] at hh2
          rw [hh2]
          simp
        have i2 : (A ++ 0 :: (x :: B)).indexOf 0 = A.length :=
          indexOf_zero_concat A (x :: B) hAfree
        rw [i1, i2, hA, hrow]
  obtain ⟨hfe, hie⟩ := hfilters
  rcases Nat.mod_two_eq_zero_or_one w with hw | hw
  · rw [is_solvable_even w h hw, is_solvable_even w h hw, hfe, hie]
  · rw [is_solvable_odd w h hw, is_solvable_odd w h hw, hfe]

/-- Swapping the blank with the tile one row below it in the flattening
leaves the solvability verdict unchanged. -/
theorem is_solvable_swap_vert (w h : ℕ) (f : List ℕ) (p : ℕ) (hw : 0 < w)
    (hperm : f.Perm (List.range (w * h))) (hq : p + w < f.length)
    (hz : f.getD p 0 = 0 ∨ f.getD (p + w) 0 = 0) :
    is_solvable w h (swapIdx f p (p + w)) = is_solvable w h f := by
  have hnd : f.Nodup := (hperm.nodup_iff).mpr (List.nodup_range _)
  have hcle := List.nodup_iff_count_le_one.mp hnd
  obtain ⟨A, M, B, hf, hf2, hA, hM⟩ := swap_split f p (p + w) (by omega) hq
  have hMlen : M.length = w - 1 := by omega
  have hdiv : (p + w) / w = p / w + 1 := Nat.add_div_right p hw
  rcases hz with h0 | h0
  · rw [h0] at hf hf2
    generalize hyv : f.getD (p + w) 0 = y at hf hf2
    have hcnt0 := hcle 0
    rw [hf] at hcnt0
    simp only [List.count_append, List.count_cons] at hcnt0
    have hy0 : y ≠ 0 := by
      intro hc
      subst hc
      simp at hcnt0
      omega
    have hAfree : ∀ a ∈ A, a ≠ 0 := by
      intro a ha hc
      subst hc
      have := List.count_pos_iff_mem.mpr ha
      simp at hcnt0
      omega
    have hMfree : ∀ a ∈ M, a ≠ 0 := by
      intro a ha hc
      subst hc
      have := List.count_pos_iff_mem.mpr ha
      simp at hcnt0
      omega
    have hMy : ∀ m ∈ M, m ≠ y := by
      intro m hm heq
      subst heq
      have h1 : 0 < M.count m := List.count_pos_iff_mem.mpr hm
      have h2 := hcle m
      rw [hf] at h2
      simp only [List.count_append, List.count_cons] at h2
      simp at h2
      omega
    have hMid : M.filter (fun t => decide (t ≠ 0)) = M :=
      List.filter_eq_self.mpr (fun a ha => by simpa using hMfree a ha)
    have hFf : f.filter (fun t => decide (t ≠ 0)) =
        A.filter (fun t => decide (t ≠ 0)) ++
          (M ++ y :: B.filter (fun t => decide (t ≠ 0))) := by
      rw [hf]
      simp only [List.filter_append, List.filter_cons, hMid]
      simp [hy0]
    have hFf2 : (swapIdx f p (p + w)).filter (fun t => decide (t ≠ 0)) =
        A.filter (fun t => decide (t ≠ 0)) ++
          y :: (M ++ B.filter (fun t => decide (t ≠ 0))) := by
      rw [hf2]
      simp only [List.filter_append, List.filter_cons, hMid]
      simp [hy0]
    have hid := inversions_middle (A.filter (fun t => decide (t ≠ 0))) M
      (B.filter (fun t => decide (t ≠ 0))) y
    have hcsum := countP_lt_add_gt M y hMy
    have i1 : f.indexOf 0 = p := by
      rw [hf, indexOf_zero_concat A (M ++ y :: B) hAfree, hA]
    have i2 : (swapIdx f p (p + w)).indexOf 0 = p + w := by
      rw [hf2]
      have hh2 := indexOf_zero_concat (A ++ y :: M) B
        (by
          intro a ha
          rcases List.mem_append.mp ha with h1 | h1
          · exact hAfree a h1
          · rcases List.mem_cons.mp h1 with h2 | h2
            · subst h2; exact hy0
            · exact hMfree a h2)
      simp only [List.append_assoc, List.cons_append] at hh2
      rw [hh2]
      simp only [List.length_append, List.length_cons]
      omega
    rcases Nat.mod_two_eq_zero_or_one w with hw2 | hw2
    · rw [is_solvable_even w h hw2, is_solvable_even w h hw2, hFf, hFf2, i1, i2, hdiv]
      apply bne_flip
      · push_cast
        omega
      · omega
    · rw [is_solvable_odd w h hw2, is_solvable_odd w h hw2, hFf, hFf2]
      have hpar : inversions (A.filter (fun t => decide (t ≠ 0)) ++
          y :: (M ++ B.filter (fun t => decide (t ≠ 0)))) % 2 =
          inversions (A.filter (fun t => decide (t ≠ 0)) ++
          (M ++ y :: B.filter (fun t => decide (t ≠ 0)))) % 2 := by
        omega
      rw [hpar]
  · rw [h0] at hf hf2
    generalize hxv : f.getD p 0 = x at hf hf2
    have hcnt0 := hcle 0
    rw [hf] at hcnt0
    simp only [List.count_append, List.count_cons] at hcnt0
    have hx0 : x ≠ 0 := by
      intro hc
      subst hc
      simp at hcnt0
      omega
    have hAfree : ∀ a ∈ A, a ≠ 0 := by
      intro a ha hc
      subst hc
      have := List.count_pos_iff_mem.mpr ha
      simp at hcnt0
      omega
    have hMfree : ∀ a ∈ M, a ≠ 0 := by
      intro a ha hc
      subst hc
      have := List.count_pos_iff_mem.mpr ha
      simp at hcnt0
      omega
    have hMx : ∀ m ∈ M, m ≠ x := by
      intro m hm heq
      subst heq
      have h1 : 0 < M.count m := List.count_pos_iff_mem.mpr hm
      have h2 := hcle m
      rw [hf] at h2
      simp only [List.count_append, List.count_cons] at h2
      simp at h2
      omega
    have hMid : M.filter (fun t => decide (t ≠ 0)) = M :=
      List.filter_eq_self.mpr (fun a ha => by simpa using hMfree a ha)
    have hFf : f.filter (fun t => decide (t ≠ 0)) =
        A.filter (fun t => decide (t ≠ 0)) ++
          x :: (M ++ B.filter (fun t => decide (t ≠ 0))) := by
      rw [hf]
      simp only [List.filter_append, List.filter_cons, hMid]
      simp [hx0]
    have hFf2 : (swapIdx f p (p + w)).filter (fun t => decide (t ≠ 0)) =
        A.filter (fun t => decide (t ≠ 0)) ++
          (M ++ x :: B.filter (fun t => decide (t ≠ 0))) := by
      rw [hf2]
      simp only [List.filter_append, List.filter_cons, hMid]
      simp [hx0]
    have hid := inversions_middle (A.filter (fun t => decide (t ≠ 0))) M
      (B.filter (fun t => decide (t ≠ 0))) x
    have hcsum := countP_lt_add_gt M x hMx
    have i1 : f.indexOf 0 = p + w := by
      rw [hf]
      have hh2 := indexOf_zero_concat (A ++ x :: M) B
        (by
          intro a ha
          rcases List.mem_append.mp ha with h1 | h1
          · exact hAfree a h1
          · rcases List.mem_cons.mp h1 with h2 | h2
            · subst h2; exact hx0
            · exact hMfree a h2)
      simp only [List.append_assoc, List.cons_append] at hh2
      rw [hh2]
      simp only [List.length_append, List.length_cons]
      omega
    have i2 : (swapIdx f p (p + w)).indexOf 0 = p := by
      rw [hf2, indexOf_zero_concat A (M ++ x :: B) hAfree, hA]
    rcases Nat.mod_two_eq_zero_or_one w with hw2 | hw2
    · rw [is_solvable_even w h hw2, is_solvable_even w h hw2, hFf, hFf2, i1, i2, hdiv]
      apply bne_flip
      · push_cast
        omega
      · omega
    · rw [is_solvable_odd w h hw2, is_solvable_odd w h hw2, hFf, hFf2]
      have hpar : inversions (A.filter (fun t => decide (t ≠ 0)) ++
          (M ++ x :: B.filter (fun t => decide (t ≠ 0)))) % 2 =
          inversions (A.filter (fun t => decide (t ≠ 0)) ++
          x :: (M ++ B.filter (fun t => decide (t ≠ 0)))) % 2 := by
        omega
      rw [hpar]

theorem setCell_rows (w : ℕ) (b : Board) (i j v : ℕ)
    (hrows : ∀ row ∈ b, row.length = w) (hi : i < b.length) :
    ∀ row ∈ setCell b i j v, row.length = w := by
  intro row hrow
  rcases List.mem_or_eq_of_mem_set hrow with h1 | h1
  · exact hrows row h1
  · subst h1
    rw [List.length_set]
    have hbi : b.getD i [] = b[i] := by
      rw [List.getD_eq_getElem?_getD, List.getElem?_eq_getElem hi]
      rfl
    rw [hbi]
    exact hrows _ (List.getElem_mem hi)

theorem swapIdx_adjacent_invariant (w h : ℕ) (f : List ℕ) (z r c : ℕ)
    (hw : 0 < w)
    (hperm2 : f.Perm (List.range (w * h))) (hflen : f.length = w * h)
    (hget : f.getD z 0 = 0) (hidx : z < w * h)
    (hr : r < h) (hc : c < w)
    (hadj : (((z / w : ℕ) : ℤ) - (r : ℤ)).natAbs +
      (((z % w : ℕ) : ℤ) - (c : ℤ)).natAbs = 1) :
    is_solvable w h (swapIdx f z (r * w + c)) = is_solvable w h f := by
  have hzc : z % w < w := Nat.mod_lt _ hw
  have hzdm2 : z / w * w + z % w = z := by
    rw [Nat.mul_comm]
    exact Nat.div_add_mod z w
  have hzdm3 : w * (z / w) + z % w = z := Nat.div_add_mod z w
  have hqlt : r * w + c < w * h := by
    have h1 : r * w + c < (r + 1) * w := by
      rw [Nat.succ_mul]
      omega
    have h2 : (r + 1) * w ≤ h * w := Nat.mul_le_mul_right _ (by omega)
    rw [Nat.mul_comm w h]
    omega
  have hcases : (r = z / w ∧ c = z % w + 1) ∨ (r = z / w ∧ c + 1 = z % w) ∨
      (r = z / w + 1 ∧ c = z % w) ∨ (r + 1 = z / w ∧ c = z % w) := by omega
  rcases hcases with ⟨hrr, hcc⟩ | ⟨hrr, hcc⟩ | ⟨hrr, hcc⟩ | ⟨hrr, hcc⟩
  · have hqz : r * w + c = z + 1 := by
      subst hrr hcc
      omega
    rw [hqz]
    apply is_solvable_swap_horiz w h f z hperm2 (by omega) (Or.inl hget)
    have he : z + 1 = w * (z / w) + (z % w + 1) := by omega
    rw [he, Nat.mul_add_div hw, Nat.div_eq_of_lt (show z % w + 1 < w by omega)]
    omega
  · have hqz : (r * w + c) + 1 = z := by
      subst hrr
      omega
    rw [swapIdx_comm f z (r * w + c) (by omega), ← hqz]
    apply is_solvable_swap_horiz w h f (r * w + c) hperm2 (by omega)
      (Or.inr (by rw [hqz]; exact hget))
    have he0 : r * w + c = w * (z / w) + (z % w - 1) := by
      subst hrr
      omega
    have he1 : (r * w + c) / w = z / w := by
      rw [he0, Nat.mul_add_div hw, Nat.div_eq_of_lt (show z % w - 1 < w by omega)]
      omega
    have he2 : ((r * w + c) + 1) / w = z / w := by
      rw [hqz]
    omega
  · have hqz : r * w + c = z + w := by
      have hs : r * w = z / w * w + w := by
        rw [hrr, Nat.succ_mul]
      omega
    rw [hqz]
    exact is_solvable_swap_vert w h f z hw hperm2 (by omega) (Or.inl hget)
  · have hqz : (r * w + c) + w = z := by
      have hs : z / w * w = r * w + w := by
        rw [← hrr, Nat.succ_mul]
      omega
    rw [swapIdx_comm f z (r * w + c) (by omega), ← hqz]
    exact is_solvable_swap_vert w h f (r * w + c) hw hperm2 (by omega)
      (Or.inr (by rw [hqz]; exact hget))

/-- Claim C5: the solvability verdict is invariant under `move`: for every
well-formed board and in-range clicked cell, `is_solvable` of the flattened
board after `SlidingPuzzle.move` equals `is_solvable` of the flattened board
before it (when the cell is not adjacent to the blank the board is
unchanged; when it is, the move is the legal swap of the blank with that
tile). -/
theorem C5_solvability_invariant_under_move (w h : ℕ) (b : Board) (r c : ℕ)
    (hWF : WF w h b) (hr : r < h) (hc : c < w) :
    is_solvable w h (flatten (moveSwap w h b r c)) = is_solvable w h (flatten b) := by
  have hw : 0 < w := by omega
  have hh : 0 < h := by omega
  obtain ⟨hlen, hrows, hperm⟩ := hWF
  have hperm2 : (flatten b).Perm (List.range (w * h)) := hperm
  obtain ⟨hflen, hidx, hget, huniq⟩ := blank_facts w h b hperm2 hw hh
  have hscan := (blankScans_eq w h b ⟨hlen, hrows, hperm⟩ hw hh).1
  have hzr : (flatten b).indexOf 0 / w < h := Nat.div_lt_of_lt_mul hidx
  have hzc : (flatten b).indexOf 0 % w < w := Nat.mod_lt _ hw
  have hzdm2 : (flatten b).indexOf 0 / w * w + (flatten b).indexOf 0 % w =
      (flatten b).indexOf 0 := by
    rw [Nat.mul_comm]
    exact Nat.div_add_mod _ w
  simp only [moveSwap, hscan]
  by_cases hadj :
      ((((flatten b).indexOf 0 / w : ℕ) : ℤ) - (r : ℤ)).natAbs +
        ((((flatten b).indexOf 0 % w : ℕ) : ℤ) - (c : ℤ)).natAbs = 1
  · rw [if_pos (by simpa using hadj)]
    have hcellz : getCell b ((flatten b).indexOf 0 / w) ((flatten b).indexOf 0 % w) = 0 := by
      rw [getCell_flatten w b _ _ hrows (by rw [hlen] at *; exact hzr) hzc, hzdm2]
      exact hget
    have hcellq : getCell b r c = (flatten b).getD (r * w + c) 0 := by
      rw [getCell_flatten w b _ _ hrows (by rw [hlen]; exact hr) hc]
    have hflat : flatten (setCell (setCell b ((flatten b).indexOf 0 / w)
        ((flatten b).indexOf 0 % w) (getCell b r c)) r c
        (getCell b ((flatten b).indexOf 0 / w) ((flatten b).indexOf 0 % w))) =
        swapIdx (flatten b) ((flatten b).indexOf 0) (r * w + c) := by
      have hinner_len : (setCell b ((flatten b).indexOf 0 / w)
          ((flatten b).indexOf 0 % w) (getCell b r c)).length = b.length :=
        List.length_set b _ _
      have hinner_rows := setCell_rows w b ((flatten b).indexOf 0 / w)
        ((flatten b).indexOf 0 % w) (getCell b r c) hrows (by rw [hlen]; exact hzr)
      rw [flatten_setCell w _ r c _ hinner_rows (by rw [hinner_len, hlen]; exact hr) hc,
        flatten_setCell w b _ _ _ hrows (by rw [hlen]; exact hzr) hzc, hzdm2]
      rw [hcellz, hcellq]
      unfold swapIdx
      rw [hget]
    rw [hflat]
    exact swapIdx_adjacent_invariant w h (flatten b) ((flatten b).indexOf 0) r c hw
      hperm2 hflen hget hidx hr hc hadj
  · rw [if_neg (by simpa using hadj)]

/-- Witness for C5 on a concrete board with the tile right of the blank. -/
theorem C5_solvability_invariant_under_move_witness :
    WF 3 3 [[1, 2, 3], [4, 5, 6], [7, 0, 8]] ∧ 2 < 3 ∧ 2 < 3 ∧
    is_solvable 3 3 (flatten (moveSwap 3 3 [[1, 2, 3], [4, 5, 6], [7, 0, 8]] 2 2)) =
      is_solvable 3 3 (flatten [[1, 2, 3], [4, 5, 6], [7, 0, 8]]) :=
  ⟨by decide, by decide, by decide,
    C5_solvability_invariant_under_move 3 3 [[1, 2, 3], [4, 5, 6], [7, 0, 8]] 2 2
      (by decide) (by decide) (by decide)⟩

/-! The model of the human client, `SlidingPuzzleModel` of client_Human.py:
board state, move counting and the memento undo/redo stacks. Python list
`append`/`pop` act on the END of the stacks. -/

structure HModel where
  width : ℕ
  height : ℕ
  board : Board
  move_count : ℕ
  memento_stack : List Board
  redo_stack : List Board
deriving DecidableEq, Repr

namespace HModel

/-- `SlidingPuzzleModel.save_state` (client_Human.py lines 127-131): push a
deep copy of the board onto the undo stack and clear the redo stack. -/
def save_state (m : HModel) : HModel :=
  { m with memento_stack := m.memento_stack ++ [m.board], redo_stack := [] }

/-- `SlidingPuzzleModel.attempt_move` (client_Human.py lines 100-124): find
the first blank (the source returns a bare False when there is none, modelled
as `(false, none)`); when `(r, c)` is orthogonally adjacent to it, save
state, swap, count the move and return the swap coordinates. -/
def attempt_move (m : HModel) (r c : ℕ) :
    (Bool × Option (ℕ × ℕ × ℕ × ℕ)) × HModel :=
  match (posList m.height m.width).find? (fun p => getCell m.board p.1 p.2 == 0) with
  | none => ((false, none), m)
  | some (er, ec) =>
    if ((er : ℤ) - (r : ℤ)).natAbs + ((ec : ℤ) - (c : ℤ)).natAbs == 1 then
      let m1 := save_state m
      ((true, some (er, ec, r, c)),
        { m1 with
          board := setCell (setCell m1.board er ec (getCell m1.board r c)) r c
            (getCell m1.board er ec),
          move_count := m1.move_count + 1 })
    else ((false, none), m)

/-- `SlidingPuzzleModel.undo` (client_Human.py lines 133-142): push the
current board on the redo stack, pop the undo stack into the board, and
decrement the move count, saturating at 0 as `max(0, ...)` does. -/
def undo (m : HModel) : Bool × HModel :=
  match m.memento_stack.getLast? with
  | some prev =>
    (true,
      { m with
        redo_stack := m.redo_stack ++ [m.board],
        board := prev,
        memento_stack := m.memento_stack.dropLast,
        move_count := m.move_count - 1 })
  | none => (false, m)

/-- `SlidingPuzzleModel.redo` (client_Human.py lines 144-153): push the
current board on the undo stack and pop the redo stack into the board. -/
def redo (m : HModel) : Bool × HModel :=
  match m.redo_stack.getLast? with
  | some nxt =>
    (true,
      { m with
        memento_stack := m.memento_stack ++ [m.board],
        board := nxt,
        redo_stack := m.redo_stack.dropLast,
        move_count := m.move_count + 1 })
  | none => (false, m)

end HModel

/-- Claim C9: after any successful `attempt_move`, `undo` succeeds and
restores exactly the board from immediately before the move, and `redo`
right after that `undo` succeeds and restores exactly the board the undo
removed. -/
theorem C9_undo_redo_roundtrip (m : HModel) (r c : ℕ)
    (res : Bool × Option (ℕ × ℕ × ℕ × ℕ)) (m2 : HModel)
    (hmove : HModel.attempt_move m r c = (res, m2)) (hok : res.1 = true) :
    (HModel.undo m2).1 = true ∧ (HModel.undo m2).2.board = m.board ∧
      (HModel.redo (HModel.undo m2).2).1 = true ∧
      (HModel.redo (HModel.undo m2).2).2.board = m2.board := by
  unfold HModel.attempt_move at hmove
  split at hmove
  · injection hmove with h1 h2
    rw [← h1] at hok
    simp at hok
  · split at hmove
    · injection hmove with h1 h2
      subst h2
      simp [HModel.undo, HModel.redo, HModel.save_state, List.getLast?_concat,
        List.dropLast_concat]
    · injection hmove with h1 h2
      rw [← h1] at hok
      simp at hok

/-- Witness for C9 on a concrete 3x3 model and the move clicking (2,2). -/
theorem C9_undo_redo_roundtrip_witness :
    HModel.attempt_move ⟨3, 3, [[1, 2, 3], [4, 5, 6], [7, 0, 8]], 0, [], []⟩ 2 2 =
      ((true, some (2, 1, 2, 2)),
        ⟨3, 3, [[1, 2, 3], [4, 5, 6], [7, 8, 0]], 1,
          [[[1, 2, 3], [4, 5, 6], [7, 0, 8]]], []⟩) ∧
    (true, some (2, 1, 2, 2)).1 = true ∧
    ((HModel.undo ⟨3, 3, [[1, 2, 3], [4, 5, 6], [7, 8, 0]], 1,
        [[[1, 2, 3], [4, 5, 6], [7, 0, 8]]], []⟩).1 = true ∧
      (HModel.undo ⟨3, 3, [[1, 2, 3], [4, 5, 6], [7, 8, 0]], 1,
        [[[1, 2, 3], [4, 5, 6], [7, 0, 8]]], []⟩).2.board =
        (⟨3, 3, [[1, 2, 3], [4, 5, 6], [7, 0, 8]], 0, [], []⟩ : HModel).board ∧
      (HModel.redo (HModel.undo ⟨3, 3, [[1, 2, 3], [4, 5, 6], [7, 8, 0]], 1,
        [[[1, 2, 3], [4, 5, 6], [7, 0, 8]]], []⟩).2).1 = true ∧
      (HModel.redo (HModel.undo ⟨3, 3, [[1, 2, 3], [4, 5, 6], [7, 8, 0]], 1,
        [[[1, 2, 3], [4, 5, 6], [7, 0, 8]]], []⟩).2).2.board =
        (⟨3, 3, [[1, 2, 3], [4, 5, 6], [7, 8, 0]], 1,
          [[[1, 2, 3], [4, 5, 6], [7, 0, 8]]], []⟩ : HModel).board) :=
  ⟨by decide, rfl,
    C9_undo_redo_roundtrip ⟨3, 3, [[1, 2, 3], [4, 5, 6], [7, 0, 8]], 0, [], []⟩ 2 2
      (true, some (2, 1, 2, 2))
      ⟨3, 3, [[1, 2, 3], [4, 5, 6], [7, 8, 0]], 1,
        [[[1, 2, 3], [4, 5, 6], [7, 0, 8]]], []⟩ (by decide) rfl⟩

/-! The goal-order traversal of client_Computer.py (`SlidingPuzzle.traversal`,
lines 362-407) and the spiral of client_Human.py
(`SlidingPuzzleModel._get_traversal`, lines 156-198). The cursor variables
top/left/bottom/right stay non-negative throughout for the exercised sizes
(width, height ≥ 3), so Nat subtraction agrees with Python. The while loops
take an explicit fuel argument so the definitions are structural; every use
passes fuel at least the loop measure, where the fuel plays no role. -/

/-- `matrix[r][c]` of both traversals: `r * width + c + 1`. -/
def matVal (w r c : ℕ) : ℕ := r * w + c + 1

/-- One `for c in range(left, right + 1)` row strip, tagged `true`. -/
def rowStrip (w top left right : ℕ) : List (ℕ × Bool) :=
  (List.range' left (right + 1 - left)).map (fun c => (matVal w top c, true))

/-- One `for r in range(top, bottom + 1)` column strip, tagged `false`. -/
def colStrip (w top bottom left : ℕ) : List (ℕ × Bool) :=
  (List.range' top (bottom + 1 - top)).map (fun r => (matVal w r left, false))

/-- The shrink-to-square phase of `SlidingPuzzle.traversal` (lines 371-381):
returns the emitted strips and the final (top, left). The loop runs at most
`(bottom - top) + (right - left)` times, so any fuel beyond that is inert. -/
def phase1 (w : ℕ) : ℕ → ℕ → ℕ → ℕ → ℕ → List (ℕ × Bool) × (ℕ × ℕ)
  | 0, top, left, _, _ => ([], (top, left))
  | fuel + 1, top, left, bottom, right =>
    if (bottom - top) ≠ (right - left) then
      if (right - left) < (bottom - top) then
        let rest := phase1 w fuel (top + 1) left bottom right
        (rowStrip w top left right ++ rest.1, rest.2)
      else
        let rest := phase1 w fuel top (left + 1) bottom right
        (colStrip w top bottom left ++ rest.1, rest.2)
    else ([], (top, left))

/-- The square phase of `SlidingPuzzle.traversal` (lines 383-405): row,
column, then guarded second row and second column per loop iteration. -/
def phase2 (w : ℕ) : ℕ → ℕ → ℕ → ℕ → ℕ → List (ℕ × Bool)
  | 0, _, _, _, _ => []
  | fuel + 1, top, left, bottom, right =>
    if top ≤ bottom ∧ left ≤ right then
      let s1 := rowStrip w top left right
      let s2 := colStrip w (top + 1) bottom left
      let s3 := if top + 1 ≤ bottom then rowStrip w (top + 1) (left + 1) right else []
      let top2 := if top + 1 ≤ bottom then top + 2 else top + 1
      let s4 := if left + 1 ≤ right then colStrip w top2 bottom (left + 1) else []
      let left2 := if left + 1 ≤ right then left + 2 else left + 1
      s1 ++ s2 ++ s3 ++ s4 ++ phase2 w fuel top2 left2 bottom right
    else []

/-- `SlidingPuzzle.traversal` (client_Computer.py lines 362-407). -/
def traversal (w h : ℕ) : List (ℕ × Bool) :=
  let p1 := phase1 w (h + w) 0 0 (h - 1) (w - 1)
  p1.1 ++ phase2 w (h + w) p1.2.1 p1.2.2 (h - 1) (w - 1)

/-- One untagged row strip of the human traversal. -/
def hRowStrip (w top left right : ℕ) : List ℕ :=
  (List.range' left (right + 1 - left)).map (fun c => matVal w top c)

/-- One untagged column strip of the human traversal. -/
def hColStrip (w top bottom left : ℕ) : List ℕ :=
  (List.range' top (bottom + 1 - top)).map (fun r => matVal w r left)

/-- `for c in range(right, left - 1, -1)` over row `bottom`. -/
def hRowStripRev (w bottom left right : ℕ) : List ℕ :=
  ((List.range' left (right + 1 - left)).reverse).map (fun c => matVal w bottom c)

/-- `for r in range(bottom, top - 1, -1)` over column `right`. -/
def hColStripRev (w top bottom right : ℕ) : List ℕ :=
  ((List.range' top (bottom + 1 - top)).reverse).map (fun r => matVal w r right)

/-- The shrink-to-square phase of `_get_traversal` (client_Human.py lines
168-176), identical to the computer one except that values carry no tag. -/
def humanPhase1 (w : ℕ) : ℕ → ℕ → ℕ → ℕ → ℕ → List ℕ × (ℕ × ℕ)
  | 0, top, left, _, _ => ([], (top, left))
  | fuel + 1, top, left, bottom, right =>
    if (bottom - top) ≠ (right - left) then
      if (right - left) < (bottom - top) then
        let rest := humanPhase1 w fuel (top + 1) left bottom right
        (hRowStrip w top left right ++ rest.1, rest.2)
      else
        let rest := humanPhase1 w fuel top (left + 1) bottom right
        (hColStrip w top bottom left ++ rest.1, rest.2)
    else ([], (top, left))

/-- The full-spiral phase of `_get_traversal` (client_Human.py lines
178-197): top row, left column, bottom row right-to-left, right column
bottom-to-top, with a break test between strips. -/
def humanPhase2 (w : ℕ) : ℕ → ℕ → ℕ → ℕ → ℕ → List ℕ
  | 0, _, _, _, _ => []
  | fuel + 1, top, left, bottom, right =>
    if top ≤ bottom ∧ left ≤ right then
      let s1 := hRowStrip w top left right
      if top + 1 > bottom then s1
      else
        let s2 := hColStrip w (top + 1) bottom left
        if left + 1 > right then s1 ++ s2
        else
          let s3 := hRowStripRev w bottom (left + 1) right
          if top + 1 > bottom - 1 then s1 ++ s2 ++ s3
          else
            let s4 := hColStripRev w (top + 1) (bottom - 1) right
            s1 ++ s2 ++ s3 ++ s4 ++
              humanPhase2 w fuel (top + 1) (left + 1) (bottom - 1) (right - 1)
    else []

/-- `SlidingPuzzleModel._get_traversal` (client_Human.py lines 156-198). -/
def humanTraversal (w h : ℕ) : List ℕ :=
  let p1 := humanPhase1 w (h + w) 0 0 (h - 1) (w - 1)
  p1.1 ++ humanPhase2 w (h + w) p1.2.1 p1.2.2 (h - 1) (w - 1)

/-- Modelled from the spec (§4.2 GoalOrder), square phase: alternately take
the top row then the left column of the shrinking square until none
remains. Row strips are tagged true, column strips false. -/
def specSquare (w : ℕ) : ℕ → ℕ → ℕ → ℕ → ℕ → List (ℕ × Bool)
  | 0, _, _, _, _ => []
  | fuel + 1, top, left, bottom, right =>
    if top ≤ bottom ∧ left ≤ right then
      rowStrip w top left right ++ colStrip w (top + 1) bottom left ++
        specSquare w fuel (top + 1) (left + 1) bottom right
    else []

/-- Modelled from the spec (§4.2 GoalOrder), shrink phase: while the
unclaimed rectangle is not square, strip the top row when taller than wide,
else the left column. -/
def specShrink (w : ℕ) : ℕ → ℕ → ℕ → ℕ → ℕ → List (ℕ × Bool) × (ℕ × ℕ)
  | 0, top, left, _, _ => ([], (top, left))
  | fuel + 1, top, left, bottom, right =>
    if (bottom - top) ≠ (right - left) then
      if (right - left) < (bottom - top) then
        let rest := specShrink w fuel (top + 1) left bottom right
        (rowStrip w top left right ++ rest.1, rest.2)
      else
        let rest := specShrink w fuel top (left + 1) bottom right
        (colStrip w top bottom left ++ rest.1, rest.2)
    else ([], (top, left))

/-- Modelled from the spec (§4.2 GoalOrder): the full described sequence. -/
def specGoalOrder (w h : ℕ) : List (ℕ × Bool) :=
  let p1 := specShrink w (h + w) 0 0 (h - 1) (w - 1)
  p1.1 ++ specSquare w (h + w) p1.2.1 p1.2.2 (h - 1) (w - 1)

/-- The values of the unclaimed rectangle, row-major. -/
def rectVals (w top left bottom right : ℕ) : List ℕ :=
  (List.range' top (bottom + 1 - top)).flatMap
    (fun r => (List.range' left (right + 1 - left)).map (fun c => matVal w r c))

theorem rectVals_nil (w top left bottom right : ℕ)
    (hout : ¬(top ≤ bottom ∧ left ≤ right)) :
    rectVals w top left bottom right = [] := by
  unfold rectVals
  rcases Nat.lt_or_ge bottom top with h1 | h1
  · rw [show bottom + 1 - top = 0 by omega]
    rfl
  · have h2 : right + 1 - left = 0 := by omega
    rw [h2]
    simp

theorem rectVals_row_split (w top left bottom right : ℕ) (h1 : top ≤ bottom) :
    rectVals w top left bottom right =
      (List.range' left (right + 1 - left)).map (fun c => matVal w top c) ++
        rectVals w (top + 1) left bottom right := by
  unfold rectVals
  rw [show bottom + 1 - top = (bottom - top) + 1 by omega, List.range'_succ,
    List.flatMap_cons, show bottom + 1 - (top + 1) = bottom - top by omega]

theorem flatMap_cons_perm {α β : Type} (L : List α) (g : α → β) (t2 : α → List β) :
    (L.flatMap (fun a => g a :: t2 a)).Perm (L.map g ++ L.flatMap t2) := by
  induction L with
  | nil => simp
  | cons a L ih =>
    simp only [List.flatMap_cons, List.map_cons, List.cons_append]
    refine List.Perm.cons (g a) ?_
    refine (List.Perm.append_left (t2 a) ih).trans ?_
    rw [show t2 a ++ (L.map g ++ L.flatMap t2) = (t2 a ++ L.map g) ++ L.flatMap t2
      from by rw [List.append_assoc],
      show L.map g ++ (t2 a ++ L.flatMap t2) = (L.map g ++ t2 a) ++ L.flatMap t2
      from by rw [List.append_assoc]]
    exact List.Perm.append_right _ List.perm_append_comm

theorem rectVals_col_split (w top left bottom right : ℕ) (h1 : left ≤ right) :
    (rectVals w top left bottom right).Perm
      ((List.range' top (bottom + 1 - top)).map (fun r => matVal w r left) ++
        rectVals w top (left + 1) bottom right) := by
  unfold rectVals
  rw [show right + 1 - left = (right - left) + 1 by omega]
  simp only [List.range'_succ, List.map_cons]
  have := flatMap_cons_perm (List.range' top (bottom + 1 - top))
    (fun r => matVal w r left)
    (fun r => (List.range' (left + 1) (right - left)).map (fun c => matVal w r c))
  refine this.trans ?_
  rw [show right + 1 - (left + 1) = right - left by omega]

theorem map_shift_range' (k : ℕ) : ∀ (n a : ℕ),
    (List.range' a n).map (fun c => k + c) = List.range' (k + a) n := by
  intro n
  induction n with
  | zero => intro a; rfl
  | succ m ih =>
    intro a
    rw [List.range'_succ, List.range'_succ, List.map_cons, ih (a + 1),
      show k + (a + 1) = k + a + 1 from by omega]

theorem rectVals_full (w h : ℕ) (hw : 1 ≤ w) (hh : 1 ≤ h) :
    rectVals w 0 0 (h - 1) (w - 1) = List.range' 1 (h * w) := by
  have hrow : ∀ a n, (List.range' a n).flatMap
      (fun r => (List.range' 0 w).map (fun c => matVal w r c)) =
      List.range' (a * w + 1) (n * w) := by
    intro a n
    induction n generalizing a with
    | zero => simp
    | succ m ih =>
      rw [List.range'_succ, List.flatMap_cons, ih (a + 1)]
      have hinner : (List.range' 0 w).map (fun c => matVal w a c) =
          List.range' (a * w + 1) w := by
        have := map_shift_range' (a * w + 1) w 0
        rw [← this]
        refine List.map_congr_left fun c _ => ?_
        unfold matVal
        omega
      rw [hinner]
      have := List.range'_append (a * w + 1) w (m * w) 1
      simp only [Nat.one_mul] at this
      rw [show (a + 1) * w + 1 = a * w + 1 + w by ring_nf, this]
      congr 1
      ring
  unfold rectVals
  rw [show h - 1 + 1 - 0 = h by omega, show w - 1 + 1 - 0 = w by omega]
  have := hrow 0 h
  simpa using this

theorem rowStrip_map_fst (w t l r : ℕ) :
    (rowStrip w t l r).map Prod.fst =
      (List.range' l (r + 1 - l)).map (fun c => matVal w t c) := by
  simp [rowStrip, List.map_map, Function.comp]

theorem colStrip_map_fst (w t b l : ℕ) :
    (colStrip w t b l).map Prod.fst =
      (List.range' t (b + 1 - t)).map (fun r => matVal w r l) := by
  simp [colStrip, List.map_map, Function.comp]

theorem phase1_cover (w : ℕ) : ∀ fuel t l b r, (b - t) + (r - l) ≤ fuel →
    (((phase1 w fuel t l b r).1.map Prod.fst) ++
      rectVals w (phase1 w fuel t l b r).2.1 (phase1 w fuel t l b r).2.2 b r).Perm
      (rectVals w t l b r) := by
  intro fuel
  induction fuel with
  | zero =>
    intro t l b r hm
    simp only [phase1, List.map_nil, List.nil_append]
    exact List.Perm.refl _
  | succ n ih =>
    intro t l b r hm
    by_cases hne : (b - t) ≠ (r - l)
    · by_cases hgt : (r - l) < (b - t)
      · simp only [phase1, if_pos hne, if_pos hgt]
        rw [List.map_append, rowStrip_map_fst, List.append_assoc]
        rw [rectVals_row_split w t l b r (by omega)]
        exact List.Perm.append_left _ (ih (t + 1) l b r (by omega))
      · simp only [phase1, if_pos hne, if_neg hgt]
        rw [List.map_append, colStrip_map_fst, List.append_assoc]
        refine List.Perm.trans ?_ (rectVals_col_split w t l b r (by omega)).symm
        exact List.Perm.append_left _ (ih t (l + 1) b r (by omega))
    · simp only [phase1, if_neg hne, List.map_nil, List.nil_append]
      exact List.Perm.refl _

theorem specShrink_eq_phase1 (w : ℕ) : ∀ fuel t l b r,
    specShrink w fuel t l b r = phase1 w fuel t l b r := by
  intro fuel
  induction fuel with
  | zero => intro t l b r; rfl
  | succ n ih =>
    intro t l b r
    simp only [specShrink, phase1, ih]

theorem specSquare_nil (w fuel t l b r : ℕ) (hout : ¬(t ≤ b ∧ l ≤ r)) :
    specSquare w fuel t l b r = [] := by
  cases fuel with
  | zero => rfl
  | succ n => simp only [specSquare, if_neg hout]

theorem phase2_nil (w fuel t l b r : ℕ) (hout : ¬(t ≤ b ∧ l ≤ r)) :
    phase2 w fuel t l b r = [] := by
  cases fuel with
  | zero => rfl
  | succ n => simp only [phase2, if_neg hout]

theorem specSquare_succ (w n t l b r : ℕ) :
    specSquare w (n + 1) t l b r =
      if t ≤ b ∧ l ≤ r then
        rowStrip w t l r ++ colStrip w (t + 1) b l ++
          specSquare w n (t + 1) (l + 1) b r
      else [] := rfl

theorem phase2_succ (w n t l b r : ℕ) :
    phase2 w (n + 1) t l b r =
      if t ≤ b ∧ l ≤ r then
        rowStrip w t l r ++ colStrip w (t + 1) b l ++
          (if t + 1 ≤ b then rowStrip w (t + 1) (l + 1) r else []) ++
          (if l + 1 ≤ r then
            colStrip w (if t + 1 ≤ b then t + 2 else t + 1) b (l + 1) else []) ++
          phase2 w n (if t + 1 ≤ b then t + 2 else t + 1)
            (if l + 1 ≤ r then l + 2 else l + 1) b r
      else [] := rfl

theorem specSquare_fuel (w : ℕ) : ∀ fuel t l b r,
    (b + 1 - t) + (r + 1 - l) ≤ fuel →
    specSquare w (fuel + 1) t l b r = specSquare w fuel t l b r := by
  intro fuel
  induction fuel with
  | zero =>
    intro t l b r hm
    rw [specSquare_nil w 1 t l b r (by omega)]
    rfl
  | succ n ih =>
    intro t l b r hm
    rw [specSquare_succ w (n + 1) t l b r, specSquare_succ w n t l b r]
    by_cases hin : t ≤ b ∧ l ≤ r
    · rw [if_pos hin, if_pos hin, ih (t + 1) (l + 1) b r (by omega)]
    · rw [if_neg hin, if_neg hin]

theorem rowStrip_nil (w t l r : ℕ) (hlr : r < l) : rowStrip w t l r = [] := by
  unfold rowStrip
  rw [show r + 1 - l = 0 by omega]
  rfl

theorem colStrip_nil (w t b l : ℕ) (htb : b < t) : colStrip w t b l = [] := by
  unfold colStrip
  rw [show b + 1 - t = 0 by omega]
  rfl

theorem specSquare_eq_phase2 (w : ℕ) : ∀ fuel t l b r,
    (b + 1 - t) + (r + 1 - l) ≤ fuel →
    specSquare w fuel t l b r = phase2 w fuel t l b r := by
  intro fuel
  induction fuel with
  | zero => intro t l b r hm; rfl
  | succ n ih =>
    intro t l b r hm
    rw [specSquare_succ w n t l b r, phase2_succ w n t l b r]
    by_cases hin : t ≤ b ∧ l ≤ r
    · rw [if_pos hin, if_pos hin]
      by_cases h3 : t + 1 ≤ b
      · by_cases h4 : l + 1 ≤ r
        · simp only [if_pos h3, if_pos h4]
          cases n with
          | zero => omega
          | succ m =>
            rw [specSquare_succ w m (t + 1) (l + 1) b r,
              if_pos (show t + 1 ≤ b ∧ l + 1 ≤ r from ⟨h3, h4⟩),
              ← specSquare_fuel w m (t + 2) (l + 2) b r (by omega),
              ih (t + 2) (l + 2) b r (by omega)]
            simp [List.append_assoc]
        · simp only [if_pos h3, if_neg h4]
          rw [specSquare_nil w n (t + 1) (l + 1) b r (by omega),
            rowStrip_nil w (t + 1) (l + 1) r (by omega),
            phase2_nil w n (t + 2) (l + 1) b r (by omega)]
          simp
      · rw [if_neg h3, if_neg h3]
        rw [specSquare_nil w n (t + 1) (l + 1) b r (by omega)]
        rw [phase2_nil w n (t + 1) _ b r (by omega)]
        by_cases h4 : l + 1 ≤ r
        · rw [if_pos h4, colStrip_nil w (t + 1) b (l + 1) (by omega)]
          simp
        · rw [if_neg h4]
          simp
    · rw [if_neg hin, if_neg hin]

theorem specSquare_cover (w : ℕ) : ∀ fuel t l b r,
    (b + 1 - t) + (r + 1 - l) ≤ fuel →
    ((specSquare w fuel t l b r).map Prod.fst).Perm (rectVals w t l b r) := by
  intro fuel
  induction fuel with
  | zero =>
    intro t l b r hm
    rw [rectVals_nil w t l b r (by omega)]
    simp [specSquare]
  | succ n ih =>
    intro t l b r hm
    rw [specSquare_succ w n t l b r]
    by_cases hin : t ≤ b ∧ l ≤ r
    · rw [if_pos hin, List.map_append, List.map_append, rowStrip_map_fst,
        colStrip_map_fst, rectVals_row_split w t l b r hin.1,
        List.append_assoc]
      refine List.Perm.append_left _ ?_
      refine List.Perm.trans ?_ (rectVals_col_split w (t + 1) l b r hin.2).symm
      exact List.Perm.append_left _ (ih (t + 1) (l + 1) b r (by omega))
    · rw [if_neg hin, rectVals_nil w t l b r hin]
      rfl

/-- C8: for every width and height at least 3, the computer client's
`traversal` produces exactly the sequence described by the spec's GoalOrder
algorithm (shrink to square stripping the longer side, then alternate top
row / left column of the shrinking square, rows tagged true and columns
false), and the values it produces are exactly 1..width*height, each once —
in particular every tile except the blank is covered exactly once.
(The human client's `_get_traversal` does NOT follow this order; see the
separate counterexample.) -/
theorem C8_goal_order_traversal (w h : ℕ) (hw : 3 ≤ w) (hh : 3 ≤ h) :
    traversal w h = specGoalOrder w h ∧
      ((traversal w h).map Prod.fst).Perm (List.range' 1 (w * h)) := by
  constructor
  · show (phase1 w (h + w) 0 0 (h - 1) (w - 1)).1 ++
        phase2 w (h + w) (phase1 w (h + w) 0 0 (h - 1) (w - 1)).2.1
          (phase1 w (h + w) 0 0 (h - 1) (w - 1)).2.2 (h - 1) (w - 1) =
      (specShrink w (h + w) 0 0 (h - 1) (w - 1)).1 ++
        specSquare w (h + w) (specShrink w (h + w) 0 0 (h - 1) (w - 1)).2.1
          (specShrink w (h + w) 0 0 (h - 1) (w - 1)).2.2 (h - 1) (w - 1)
    rw [specShrink_eq_phase1,
      specSquare_eq_phase2 w (h + w) (phase1 w (h + w) 0 0 (h - 1) (w - 1)).2.1
        (phase1 w (h + w) 0 0 (h - 1) (w - 1)).2.2 (h - 1) (w - 1) (by omega)]
  · show ((((phase1 w (h + w) 0 0 (h - 1) (w - 1)).1 ++
        phase2 w (h + w) (phase1 w (h + w) 0 0 (h - 1) (w - 1)).2.1
          (phase1 w (h + w) 0 0 (h - 1) (w - 1)).2.2 (h - 1) (w - 1))).map
        Prod.fst).Perm (List.range' 1 (w * h))
    rw [List.map_append, Nat.mul_comm w h, ← rectVals_full w h (by omega) (by omega)]
    refine List.Perm.trans (List.Perm.append_left _ ?_)
      (phase1_cover w (h + w) 0 0 (h - 1) (w - 1) (by omega))
    rw [← specSquare_eq_phase2 w (h + w)
      (phase1 w (h + w) 0 0 (h - 1) (w - 1)).2.1
      (phase1 w (h + w) 0 0 (h - 1) (w - 1)).2.2 (h - 1) (w - 1) (by omega)]
    exact specSquare_cover w (h + w)
      (phase1 w (h + w) 0 0 (h - 1) (w - 1)).2.1
      (phase1 w (h + w) 0 0 (h - 1) (w - 1)).2.2 (h - 1) (w - 1) (by omega)

theorem C8_goal_order_traversal_witness :
    traversal 3 3 = specGoalOrder 3 3 ∧
      ((traversal 3 3).map Prod.fst).Perm (List.range' 1 (3 * 3)) :=
  C8_goal_order_traversal 3 3 (by decide) (by decide)

/-- C8 counterexample: the human client's `_get_traversal` is a full spiral
(top row, left column, bottom row reversed, right column reversed) and does
not follow the spec's GoalOrder alternation; at 3x3 it already deviates
(it yields [1,2,3,4,7,9,8,6,5] while the spec order is [1,2,3,4,7,5,6,8,9]). -/
theorem C8_human_traversal_diverges :
    humanTraversal 3 3 ≠ (specGoalOrder 3 3).map Prod.fst := by decide

/-! ## The human solver (`solve_puzzle_human`, client_Computer.py 673-910)

Shallow embedding of the whole solver. Python exceptions become an error
type; unbounded loops take explicit fuel, whose exhaustion is the
distinguished error `fuelOut` that no handler of the source catches (the
source has no corresponding exception). Errors carry the mutable state at
the raise point, since the source mutates `board_copy` in place and a
caught exception keeps those mutations. -/

/-- The exceptions the solver can raise: the explicit `Exception` of the
repeat guard (`Stuck`), `IndexError` from list indexing, `TypeError` from
unpacking `find_tile`'s `None`, `ValueError` from
`is_bottom_right_correct`, and the fuel artifact. -/
inductive PErr where
  | stuck
  | indexError
  | typeError
  | valueError
  | fuelOut
deriving DecidableEq, Repr

/-- The solver's mutable state: `board_copy`, the pathfinder's `prev` and
`repeat_count` (Python initializes `prev = (-1, -1)`, hence integers), the
`completed` list, the accumulated outer `moves` list, and a ghost flag
recording whether any exception was swallowed along the way. -/
structure St where
  board : Board
  prev : ℤ × ℤ
  repeatc : ℕ
  completed : List (ℕ × ℕ)
  movesAcc : List Move
  caught : Bool
deriving DecidableEq, Repr

/-- The simultaneous swap `b[r1][c1], b[r2][c2] = b[r2][c2], b[r1][c1]`:
both reads happen before both writes, writes left to right. -/
def swapCells (b : Board) (r1 c1 r2 c2 : ℕ) : Board :=
  let v1 := getCell b r1 c1
  let v2 := getCell b r2 c2
  setCell (setCell b r1 c1 v2) r2 c2 v1

/-- `move_copy` (client_Computer.py 688-696). The blank is at `(br, bc)`,
always in range when called. `UP`/`LEFT` use index `br - 1`/`bc - 1`, which
at 0 is Python's `-1` and silently wraps to the last row/column; `DOWN` and
`RIGHT` use `br + 1`/`bc + 1`, which past the end raises `IndexError`. -/
def move_copy (b : Board) (br bc : ℕ) (m : Move) : Except PErr Board :=
  match m with
  | .UP => .ok (swapCells b br bc (if br = 0 then b.length - 1 else br - 1) bc)
  | .DOWN =>
    if br + 1 < b.length then .ok (swapCells b br bc (br + 1) bc)
    else .error .indexError
  | .LEFT =>
    .ok (swapCells b br bc br (if bc = 0 then (b.getD br []).length - 1 else bc - 1))
  | .RIGHT =>
    if bc + 1 < (b.getD br []).length then .ok (swapCells b br bc br (bc + 1))
    else .error .indexError

/-- The row-major cell order `find_tile` scans: `r in range(len(board))`,
`c in range(len(board[0]))`. -/
def cellList (b : Board) : List (ℕ × ℕ) :=
  (List.range b.length).flatMap
    (fun r => (List.range (b.getD 0 []).length).map (fun c => (r, c)))

/-- `find_tile` (client_Computer.py 681-686): first cell holding `value`,
row-major, `None` when absent. -/
def find_tile (b : Board) (v : ℕ) : Option (ℕ × ℕ) :=
  (cellList b).find? (fun p => getCell b p.1 p.2 == v)

/-- The BFS neighbor directions of `move_blank` in source order:
UP, DOWN, LEFT, RIGHT. -/
def dirList : List ((ℤ × ℤ) × Move) :=
  [((-1, 0), .UP), ((1, 0), .DOWN), ((0, -1), .LEFT), ((0, 1), .RIGHT)]

/-- The BFS loop of `move_blank` (client_Computer.py 723-759): queue of
`(cell, path)`, visited marked at enqueue time, neighbors skipped when
completed, equal to the held tile's cell, or visited. Returns the path to
`target`, or `none` when the queue empties (the source's fallthrough
`return []`). -/
def bfs (b : Board) (completed : List (ℕ × ℕ)) (tile target : ℕ × ℕ) :
    ℕ → List ((ℕ × ℕ) × List Move) → List (ℕ × ℕ) →
    Except PErr (Option (List Move))
  | 0, _, _ => .error .fuelOut
  | _ + 1, [], _ => .ok none
  | fuel + 1, (p, path) :: q, visited =>
    if p = target then .ok (some path)
    else
      let rows := b.length
      let cols := (b.getD 0 []).length
      let next := dirList.foldl
        (fun (acc : List ((ℕ × ℕ) × List Move) × List (ℕ × ℕ)) d =>
          let nr := (p.1 : ℤ) + d.1.1
          let nc := (p.2 : ℤ) + d.1.2
          if 0 ≤ nr ∧ nr < (rows : ℤ) ∧ 0 ≤ nc ∧ nc < (cols : ℤ) then
            let np := (nr.toNat, nc.toNat)
            if np ∉ completed ∧ np ≠ tile ∧ np ∉ acc.2 then
              (acc.1 ++ [(np, path ++ [d.2])], acc.2 ++ [np])
            else acc
          else acc)
        (q, visited)
      bfs b completed tile target fuel next.1 next.2

/-- The path replay of `move_blank` (751-754) and of the A* stage (889-892):
for each move, find the blank and `move_copy` it; no handler, so an error
propagates, carrying the partially mutated board. -/
def replayPath (b : Board) : List Move → Except (PErr × Board) Board
  | [] => .ok b
  | m :: rest =>
    match find_tile b 0 with
    | none => .error (.typeError, b)
    | some p =>
      match move_copy b p.1 p.2 m with
      | .error e => .error (e, b)
      | .ok b2 => replayPath b2 rest

/-- `move_blank` after the repeat guard: find the blank, BFS to `target`,
replay the found path on the board; an empty BFS result applies nothing. -/
def move_blank_core (st : St) (target tile : ℕ × ℕ) (fuel : ℕ) :
    Except (PErr × St) (List Move × St) :=
  match find_tile st.board 0 with
  | none => .error (.typeError, st)
  | some s =>
    match bfs st.board st.completed tile target fuel [(s, [])] [s] with
    | .error e => .error (e, st)
    | .ok none => .ok ([], st)
    | .ok (some path) =>
      match replayPath st.board path with
      | .error (e, b2) => .error (e, { st with board := b2 })
      | .ok b2 => .ok (path, { st with board := b2 })

/-- `move_blank` (client_Computer.py 698-759). The guard (699-707) compares
`prev` against the TILE position: equal → increment `repeat_count` and
raise Stuck the moment the incremented count reaches 50 (the increment
survives the raise); different → reset `prev` to the tile position and
`repeat_count` to 0. The requested target never enters the comparison. -/
def move_blank (st : St) (target tile : ℕ × ℕ) (fuel : ℕ) :
    Except (PErr × St) (List Move × St) :=
  if st.prev = ((tile.1 : ℤ), (tile.2 : ℤ)) then
    let st1 := { st with repeatc := st.repeatc + 1 }
    if 50 ≤ st1.repeatc then .error (.stuck, st1)
    else move_blank_core st1 target tile fuel
  else
    move_blank_core { st with prev := ((tile.1 : ℤ), (tile.2 : ℤ)), repeatc := 0 }
      target tile fuel

/-- The recurring `blank_r, blank_c = find_tile(0); move_copy(blank_r,
blank_c, m)` idiom. -/
def blank_move (st : St) (m : Move) : Except (PErr × St) St :=
  match find_tile st.board 0 with
  | none => .error (.typeError, st)
  | some p =>
    match move_copy st.board p.1 p.2 m with
    | .error e => .error (e, st)
    | .ok b2 => .ok { st with board := b2 }

/-- One `while` iteration body plus loop test of `move_tile_to`
(client_Computer.py 767-793), with `cur` the `(tile_r, tile_c)` pair the
loop condition reads (initially `(-1, -1)`) and `acc` the local `moves`
list, discarded when an error propagates. Each body: find the tile, the
two horizontal pushes (both guarded by the same stale position), re-find,
the two vertical pushes, then loop on the re-found position. -/
def mtt_loop (v tr tc mbFuel : ℕ) :
    ℕ → ℤ × ℤ → List Move → St → Except (PErr × St) (List Move × St)
  | 0, _, _, st => .error (.fuelOut, st)
  | fuel + 1, cur, acc, st0 =>
    if cur = ((tr : ℤ), (tc : ℤ)) then .ok (acc, st0)
    else
      match find_tile st0.board v with
      | none => .error (.typeError, st0)
      | some t1 =>
        let horiz : Except (PErr × St) (List Move × St) :=
          if tc < t1.2 then
            match move_blank st0 (t1.1, t1.2 - 1) t1 mbFuel with
            | .error e => .error e
            | .ok (p, st1) =>
              match blank_move st1 .RIGHT with
              | .error e => .error e
              | .ok st2 => .ok (acc ++ p ++ [.RIGHT], st2)
          else if t1.2 < tc then
            match move_blank st0 (t1.1, t1.2 + 1) t1 mbFuel with
            | .error e => .error e
            | .ok (p, st1) =>
              match blank_move st1 .LEFT with
              | .error e => .error e
              | .ok st2 => .ok (acc ++ p ++ [.LEFT], st2)
          else .ok (acc, st0)
        match horiz with
        | .error e => .error e
        | .ok (acc1, stA) =>
          match find_tile stA.board v with
          | none => .error (.typeError, stA)
          | some t2 =>
            let vert : Except (PErr × St) (List Move × St) :=
              if tr < t2.1 then
                match move_blank stA (t2.1 - 1, t2.2) t2 mbFuel with
                | .error e => .error e
                | .ok (p, st1) =>
                  match blank_move st1 .DOWN with
                  | .error e => .error e
                  | .ok st2 => .ok (acc1 ++ p ++ [.DOWN], st2)
              else if t2.1 < tr then
                match move_blank stA (t2.1 + 1, t2.2) t2 mbFuel with
                | .error e => .error e
                | .ok (p, st1) =>
                  match blank_move st1 .UP with
                  | .error e => .error e
                  | .ok st2 => .ok (acc1 ++ p ++ [.UP], st2)
              else .ok (acc1, stA)
            match vert with
            | .error e => .error e
            | .ok (acc2, stB) =>
              mtt_loop v tr tc mbFuel fuel ((t2.1 : ℤ), (t2.2 : ℤ)) acc2 stB

/-- `move_tile_to` (client_Computer.py 761-794): the dead initial
`blank_r, blank_c = find_tile(0)` unpack (which still raises TypeError when
the board has no blank), then the while loop from `(-1, -1)`. -/
def move_tile_to (st : St) (v tr tc mbFuel loopFuel : ℕ) :
    Except (PErr × St) (List Move × St) :=
  match find_tile st.board 0 with
  | none => .error (.typeError, st)
  | some _ => mtt_loop v tr tc mbFuel loopFuel (-1, -1) [] st

/-- `moves += move_tile_to(...)` at the main-loop level: run it against the
outer state and append its returned list to the outer `moves`. -/
def mtt_acc (st : St) (v tr tc mbFuel loopFuel : ℕ) :
    Except (PErr × St) St :=
  match move_tile_to st v tr tc mbFuel loopFuel with
  | .error e => .error e
  | .ok (p, st1) => .ok { st1 with movesAcc := st1.movesAcc ++ p }

/-- `moves.append(m); move_copy(blank_r, blank_c, m)`: the append happens
before the board mutation, so on an error the appended move persists. -/
def append_blank_move (st : St) (m : Move) : Except (PErr × St) St :=
  blank_move { st with movesAcc := st.movesAcc ++ [m] } m

/-- One iteration of the solver's main `for` loop over the goal order
(client_Computer.py 822-878), up to but excluding the per-step exception
handler. Returns the new state and whether the `break` for the bottom-right
3x3 fired. Branch tests use integer arithmetic as Python does. -/
def main_step (w h mbFuel mttFuel : ℕ) (num : ℕ) (isRow : Bool) (st : St) :
    Except (PErr × St) (St × Bool) :=
  let tr := (num - 1) / w
  let tc := (num - 1) % w
  if (tr : ℤ) = (h : ℤ) - 3 ∧ (tc : ℤ) = (w : ℤ) - 3 then .ok (st, true)
  else if (tc : ℤ) = (w : ℤ) - 2 ∧ isRow = true then
    -- one before last in row (833-845): target_c += 1
    let tc := tc + 1
    let pre : Except (PErr × St) St :=
      if getCell st.board tr tc = num + 1 then mtt_acc st (num + 1) (tr + 2) tc mbFuel mttFuel
      else .ok st
    match pre with
    | .error e => .error e
    | .ok st1 =>
      match mtt_acc st1 num tr tc mbFuel mttFuel with
      | .error e => .error e
      | .ok st2 =>
        let s3 : Except (PErr × St) St :=
          if find_tile st2.board 0 = some (tr, tc - 1) then append_blank_move st2 .DOWN
          else .ok st2
        match s3 with
        | .error e => .error e
        | .ok st3 =>
          let s4 : Except (PErr × St) St :=
            if find_tile st3.board 0 = some (tr + 1, tc) then append_blank_move st3 .RIGHT
            else .ok st3
          match s4 with
          | .error e => .error e
          | .ok st4 => .ok (st4, false)
  else if (tc : ℤ) = (w : ℤ) - 1 ∧ isRow = true then
    -- last in row (847-853): target_r += 1
    let tr := tr + 1
    match mtt_acc st num tr tc mbFuel mttFuel with
    | .error e => .error e
    | .ok st1 =>
      match mtt_acc st1 num (tr - 1) tc mbFuel mttFuel with
      | .error e => .error e
      | .ok st2 =>
        .ok ({ st2 with completed := st2.completed ++ [(tr - 1, tc), (tr - 1, tc - 1)] }, false)
  else if (tr : ℤ) = (h : ℤ) - 2 ∧ isRow = false then
    -- one before last in col (855-866): target_r += 1
    let tr := tr + 1
    let pre : Except (PErr × St) St :=
      if getCell st.board tr tc = tr * w + tc + 1 then
        mtt_acc st (tr * w + tc + 1) tr (tc + 2) mbFuel mttFuel
      else .ok st
    match pre with
    | .error e => .error e
    | .ok st1 =>
      match mtt_acc st1 num tr tc mbFuel mttFuel with
      | .error e => .error e
      | .ok st2 =>
        let s3 : Except (PErr × St) St :=
          if find_tile st2.board 0 = some (tr, tc + 1) then append_blank_move st2 .UP
          else .ok st2
        match s3 with
        | .error e => .error e
        | .ok st3 =>
          let s4 : Except (PErr × St) St :=
            if find_tile st3.board 0 = some (tr - 1, tc) then append_blank_move st3 .RIGHT
            else .ok st3
          match s4 with
          | .error e => .error e
          | .ok st4 => .ok (st4, false)
  else if (tr : ℤ) = (h : ℤ) - 1 ∧ isRow = false then
    -- last in col (868-874): target_c += 1
    let tc := tc + 1
    match mtt_acc st num tr tc mbFuel mttFuel with
    | .error e => .error e
    | .ok st1 =>
      match mtt_acc st1 num tr (tc - 1) mbFuel mttFuel with
      | .error e => .error e
      | .ok st2 =>
        .ok ({ st2 with completed := st2.completed ++ [(tr, tc - 1), (tr - 1, tc - 1)] }, false)
  else
    -- everything else (876-878)
    match mtt_acc st num tr tc mbFuel mttFuel with
    | .error e => .error e
    | .ok st1 => .ok ({ st1 with completed := st1.completed ++ [(tr, tc)] }, false)

/-- The main `for` loop (822-880) with its per-step `except Exception`
handler: any raised error other than the fuel artifact is swallowed, the
state at the raise point (board mutations included, the raising call's
local move list discarded) is kept, the ghost `caught` flag is set, and the
loop continues with the next target. -/
def main_loop (w h mbFuel mttFuel : ℕ) : List (ℕ × Bool) → St → Except PErr St
  | [], st => .ok st
  | (num, isRow) :: rest, st =>
    match main_step w h mbFuel mttFuel num isRow st with
    | .error (.fuelOut, _) => .error .fuelOut
    | .error (_, st1) => main_loop w h mbFuel mttFuel rest { st1 with caught := true }
    | .ok (st1, true) => .ok st1
    | .ok (st1, false) => main_loop w h mbFuel mttFuel rest st1

/-- The bottom-right 3x3 extraction used by both the gate and the checker
(client_Computer.py 805, 883-884): drop `height - 3` leading rows and
`width - 3` leading columns of each remaining row. -/
def subBoard (w h : ℕ) (b : Board) : Board :=
  (b.drop (h - 3)).map (fun row => row.drop (w - 3))

/-- The sub-board normalization (885-888): `sorted(flat)` enumerated gives
each value its rank; board values are distinct, so `indexOf` in the sorted
list is that rank. -/
def normalizedSub (w h : ℕ) (b : Board) : Board :=
  let uniq := (subBoard w h b).flatten.insertionSort (· ≤ ·)
  (subBoard w h b).map (fun row => row.map (fun v => uniq.indexOf v))

/-- `is_bottom_right_correct` (client_Computer.py 796-816): ValueError below
3x3; otherwise compare the SORTED flattened bottom-right 3x3 subgrid with
the SORTED list of that region's goal values `(r*w+c+1) % (w*h)` — a
multiset test on the subgrid only; no cell outside the subgrid is read. -/
def is_bottom_right_correct (w h : ℕ) (b : Board) : Except PErr Bool :=
  if h < 3 ∨ w < 3 then .error .valueError
  else
    let flat := (subBoard w h b).flatten
    let target_numbers := (List.range' (h - 3) 3).flatMap
      (fun r => (List.range' (w - 3) 3).map (fun c => (r * w + c + 1) % (w * h)))
    .ok (flat.insertionSort (· ≤ ·) == target_numbers.insertionSort (· ≤ ·))

/-- The terminal gate (client_Computer.py 893):
`is_solvable(normalized_sub_board_flat) and is_bottom_right_correct(...)`,
with Python short-circuit `and` and — crucially — `is_solvable` reading
`self.width`/`self.height`, the OUTER board's dimensions, not 3x3. -/
def gate (w h : ℕ) (b : Board) : Except PErr Bool :=
  if is_solvable w h ((normalizedSub w h b).flatten) then is_bottom_right_correct w h b
  else .ok false

/-- `manhattan` of `solve_puzzle_astar` (636-644): sum over non-blank
entries of the L1 distance between current and goal cells. -/
def manhattan (w : ℕ) (state : List ℕ) : ℕ :=
  (List.range state.length).foldl
    (fun acc idx =>
      let val := state.getD idx 0
      if val = 0 then acc
      else acc + ((idx / w : ℕ) - ((val - 1) / w : ℕ) : ℤ).natAbs
        + ((idx % w : ℕ) - ((val - 1) % w : ℕ) : ℤ).natAbs)
    0

/-- Lexicographic comparison of number lists, as Python compares tuples. -/
def cmpNatList : List ℕ → List ℕ → Ordering
  | [], [] => .eq
  | [], _ :: _ => .lt
  | _ :: _, [] => .gt
  | x :: xs, y :: ys =>
    match compare x y with
    | .eq => cmpNatList xs ys
    | o => o

/-- An entry of the A* heap: `(f, g, state, path)`. -/
abbrev AEntry := ℕ × ℕ × List ℕ × List Move

/-- Python's ordering on heap entries: compare `f`, then `g`, then the state
tuples, then the path lists of move-name strings (whose alphabetical order
is `Move.rank`). -/
def entryCmp (a b : AEntry) : Ordering :=
  match compare a.1 b.1 with
  | .eq =>
    match compare a.2.1 b.2.1 with
    | .eq =>
      match cmpNatList a.2.2.1 b.2.2.1 with
      | .eq => cmpNatList (a.2.2.2.map Move.rank) (b.2.2.2.map Move.rank)
      | o => o
    | o => o
  | o => o

/-- `heapq.heappop`: remove a least entry (leftmost among equals; entries
compare by the total `entryCmp`, so equal keys are identical entries). -/
def popMin : List AEntry → Option (AEntry × List AEntry)
  | [] => none
  | e :: rest =>
    match popMin rest with
    | none => some (e, [])
    | some (m, rem) =>
      if entryCmp e m = .gt then some (m, e :: rem) else some (e, rest)

/-- The A* expansion directions in source order (648):
DOWN, UP, RIGHT, LEFT. -/
def astarDirs : List ((ℤ × ℤ) × Move) :=
  [((1, 0), .DOWN), ((-1, 0), .UP), ((0, 1), .RIGHT), ((0, -1), .LEFT)]

/-- The `while heap` loop of `solve_puzzle_astar` (650-671): abort check
first (returning None), pop, goal test (returning the path), visited test,
then neighbor expansion pushing `(g+1+manhattan, g+1, state, path+[name])`.
When the heap empties the loop exits and the function returns Python's
implicit None — the same value as the abort return. -/
def astarLoop (w h : ℕ) (target : List ℕ) (abortF : ℕ → Bool) :
    ℕ → ℕ → List AEntry → List (List ℕ) → Except PErr (Option (List Move))
  | 0, _, _, _ => .error .fuelOut
  | _ + 1, _, [], _ => .ok none
  | fuel + 1, iter, e :: heap, visited =>
    if abortF iter then .ok none
    else
      match popMin (e :: heap) with
      | none => .ok none
      | some ((_, g, state, path), rest) =>
        if state = target then .ok (some path)
        else if state ∈ visited then astarLoop w h target abortF fuel (iter + 1) rest visited
        else
          let zero_idx := state.indexOf 0
          let r := zero_idx / w
          let c := zero_idx % w
          let pushes := astarDirs.foldl
            (fun (acc : List AEntry) d =>
              let nr := (r : ℤ) + d.1.1
              let nc := (c : ℤ) + d.1.2
              if 0 ≤ nr ∧ nr < (h : ℤ) ∧ 0 ≤ nc ∧ nc < (w : ℤ) then
                let new_idx := nr.toNat * w + nc.toNat
                let new_state := swapIdx state zero_idx new_idx
                acc ++ [(g + 1 + manhattan w new_state, g + 1, new_state, path ++ [d.2])]
              else acc)
            []
          astarLoop w h target abortF fuel (iter + 1) (rest ++ pushes) (visited ++ [state])

/-- `solve_puzzle_astar` (client_Computer.py 630-671). `abortF` is the
oracle for `self.abort_solver` read at loop iteration `i`; a true reading
returns None, exactly as queue exhaustion does. -/
def solve_puzzle_astar (abortF : ℕ → Bool) (fuel : ℕ) (b : Board) :
    Except PErr (Option (List Move)) :=
  let w := (b.getD 0 []).length
  let h := b.length
  let start := flatten b
  let target := List.range' 1 (w * h - 1) ++ [0]
  astarLoop w h target abortF fuel 0 [(manhattan w start, 0, start, [])] []

/-- The reshuffle replay (899-907): every fix move is appended to `moves`
BEFORE `move_copy`, whose IndexError alone is caught and swallowed per
move; the blank unpack's TypeError would propagate. Returns the final board
and whether an IndexError was swallowed. -/
def reshuffle_replay (b : Board) : List Move → Except PErr (Board × Bool)
  | [] => .ok (b, false)
  | m :: rest =>
    match find_tile b 0 with
    | none => .error .typeError
    | some p =>
      match move_copy b p.1 p.2 m with
      | .error .indexError =>
        match reshuffle_replay b rest with
        | .error e => .error e
        | .ok (b2, _) => .ok (b2, true)
      | .error e => .error e
      | .ok b2 =>
        match reshuffle_replay b2 rest with
        | .error e => .error e
        | .ok (b3, caught2) => .ok (b3, caught2)

/-- `solve_puzzle_human` (client_Computer.py 673-910): run the main loop
over `traversal[:-1]`, then the terminal gate; on a true gate run A* on the
normalized sub-board and replay its moves on the full board (with no
handler); on a false gate clear `completed` and recurse on the CURRENT
board, then replay the returned fix moves. The recursion is unbounded in
the source; `recFuel` counts recursion depth, and `fuelOut` is the
non-termination artifact nothing catches. Returns the returned `moves`
together with the final ghost state. -/
def solve_puzzle_human (w h : ℕ) (abortF : ℕ → Bool) (mbFuel mttFuel astarFuel : ℕ) :
    ℕ → Board → Except PErr (List Move × St)
  | 0, _ => .error .fuelOut
  | recFuel + 1, b =>
    let st0 : St := ⟨b, (-1, -1), 0, [], [], false⟩
    match main_loop w h mbFuel mttFuel ((traversal w h).dropLast) st0 with
    | .error e => .error e
    | .ok st1 =>
      match gate w h st1.board with
      | .error e => .error e
      | .ok true =>
        match solve_puzzle_astar abortF astarFuel (normalizedSub w h st1.board) with
        | .error e => .error e
        | .ok none => .ok (st1.movesAcc, st1)
        | .ok (some sub_moves) =>
          match replayPath st1.board sub_moves with
          | .error (e, _) => .error e
          | .ok b2 => .ok (st1.movesAcc ++ sub_moves, { st1 with board := b2 })
      | .ok false =>
        match solve_puzzle_human w h abortF mbFuel mttFuel astarFuel recFuel st1.board with
        | .error e => .error e
        | .ok (fix_moves, stR) =>
          match reshuffle_replay st1.board fix_moves with
          | .error e => .error e
          | .ok (b2, caught2) =>
            .ok (st1.movesAcc ++ fix_moves,
              { st1 with
                board := b2
                caught := st1.caught || stR.caught || caught2 })
